import Mathlib

/-!
Verification of `dot_pi/agent/scripts/sync-settings.py`.

The script reads one JSON settings document, writes a canonical copy and a
path-normalized copy, and prints the two output paths.  This file embeds the
script's functions over a JSON value type and proves the specification's
claims about them.
-/

set_option maxRecDepth 4000

/-- The two-character pattern `"//"` searched by the collapsing loop. -/
def dslash : List Char := ['/', '/']

/-- The three-character URL-scheme marker `"://"`. -/
def schemeMark : List Char := [':', '/', '/']

/-- Boolean prefix test on character lists (helper for the substring test). -/
def isPrefOf : List Char → List Char → Bool
  | [], _ => true
  | _ :: _, [] => false
  | a :: as, b :: bs => a = b && isPrefOf as bs

/-- Boolean substring test, the embedding of Python's `pat in s`. -/
def hasSub (pat : List Char) : List Char → Bool
  | [] => isPrefOf pat []
  | b :: bs => isPrefOf pat (b :: bs) || hasSub pat bs

/-- The character rewrite of `value.replace("\\", "/")`. -/
def bsToSlash (c : Char) : Char := if c = '\\' then '/' else c

/-- One pass of `value.replace("//", "/")`: replace non-overlapping
occurrences of `"//"` by `"/"`, scanning left to right. -/
def replaceAll : List Char → List Char
  | [] => []
  | [c] => [c]
  | a :: b :: rest =>
    if a = '/' && b = '/' then '/' :: replaceAll rest
    else a :: replaceAll (b :: rest)

/-- The `while "//" in value:` loop of `_norm_path_string`, run with explicit
fuel; `collapseLoop` supplies fuel that provably suffices. -/
def collapseSteps : Nat → List Char → List Char
  | 0, s => s
  | n + 1, s => if hasSub dslash s then collapseSteps n (replaceAll s) else s

/-- The slash-collapsing loop of `_norm_path_string` (fuel `s.length` is
enough: each pass that fires shortens the string). -/
def collapseLoop (s : List Char) : List Char := collapseSteps s.length s

/-- Embedding of `_norm_path_string` from `sync-settings.py`. -/
def norm_path_string (v : String) : String :=
  if hasSub schemeMark v.toList then v
  else String.mk (collapseLoop (List.map bsToSlash v.toList))

/-- Spec-side collapsing: every run of two or more consecutive forward
slashes becomes a single slash (a slash is dropped when another slash
follows it).  Stated from the spec's words, to be compared with the
code's loop. -/
def collapseRuns : List Char → List Char
  | [] => []
  | [c] => [c]
  | a :: b :: rest =>
    if a = '/' && b = '/' then collapseRuns (b :: rest)
    else a :: collapseRuns (b :: rest)

theorem replaceAll_nil : replaceAll [] = [] := rfl

theorem replaceAll_single (c : Char) : replaceAll [c] = [c] := rfl

theorem replaceAll_cons₂ (a b : Char) (rest : List Char) :
    replaceAll (a :: b :: rest) =
      if (a = '/' && b = '/') = true then '/' :: replaceAll rest
      else a :: replaceAll (b :: rest) := by
  rfl

theorem replaceAll_length_le (s : List Char) : (replaceAll s).length ≤ s.length := by
  induction s using replaceAll.induct with
  | case1 => simp [replaceAll]
  | case2 c => simp [replaceAll]
  | case3 a b rest h ih =>
    rw [replaceAll_cons₂, if_pos h]
    simp only [List.length_cons]
    omega
  | case4 a b rest h ih =>
    rw [replaceAll_cons₂, if_neg h]
    simp only [List.length_cons] at *
    omega

theorem hasSub_nil_eq_false : hasSub dslash [] = false := by decide

theorem hasSub_cons (pat : List Char) (b : Char) (bs : List Char) :
    hasSub pat (b :: bs) = (isPrefOf pat (b :: bs) || hasSub pat bs) := rfl

theorem isPrefOf_dslash_cons₂ (a b : Char) (rest : List Char)
    (hab : ¬(a = '/' && b = '/') = true) :
    isPrefOf dslash (a :: b :: rest) = false := by
  by_cases ha : a = '/'
  · by_cases hb : b = '/'
    · exact absurd (by simp [ha, hb]) hab
    · simp [dslash, isPrefOf, Ne.symm hb]
  · simp [dslash, isPrefOf, Ne.symm ha]

theorem replaceAll_length_lt (s : List Char) (h : hasSub dslash s = true) :
    (replaceAll s).length < s.length := by
  induction s using replaceAll.induct with
  | case1 => simp [hasSub, isPrefOf] at h
  | case2 c => simp [hasSub, isPrefOf, dslash] at h
  | case3 a b rest hab ih =>
    rw [replaceAll_cons₂, if_pos hab]
    have := replaceAll_length_le rest
    simp only [List.length_cons]
    omega
  | case4 a b rest hab ih =>
    rw [hasSub_cons, isPrefOf_dslash_cons₂ a b rest hab, Bool.false_or] at h
    have := ih h
    rw [replaceAll_cons₂, if_neg hab]
    simp only [List.length_cons] at *
    omega

/-- After the loop, no `"//"` remains. -/
theorem hasSub_dslash_collapseSteps (n : Nat) :
    ∀ s : List Char, s.length ≤ n → hasSub dslash (collapseSteps n s) = false := by
  induction n with
  | zero =>
    intro s hs
    have : s = [] := List.eq_nil_of_length_eq_zero (Nat.le_zero.mp hs)
    subst this
    simpa [collapseSteps] using hasSub_nil_eq_false
  | succ n ih =>
    intro s hs
    by_cases h : hasSub dslash s = true
    · rw [collapseSteps, if_pos h]
      exact ih _ (by have := replaceAll_length_lt s h; omega)
    · rw [collapseSteps, if_neg h]
      exact Bool.eq_false_iff.mpr h

theorem hasSub_dslash_collapseLoop (s : List Char) :
    hasSub dslash (collapseLoop s) = false :=
  hasSub_dslash_collapseSteps s.length s (Nat.le_refl _)

theorem collapseRuns_cons₂ (a b : Char) (rest : List Char) :
    collapseRuns (a :: b :: rest) =
      if (a = '/' && b = '/') = true then collapseRuns (b :: rest)
      else a :: collapseRuns (b :: rest) := by
  rfl

/-- A string with no `"//"` is a fixed point of the spec-side collapsing. -/
theorem collapseRuns_of_not_hasSub :
    ∀ s : List Char, hasSub dslash s = false → collapseRuns s = s := by
  intro s
  induction s using collapseRuns.induct with
  | case1 => intro _; rfl
  | case2 c => intro _; rfl
  | case3 a b rest hab ih =>
    intro h
    exfalso
    simp only [Bool.and_eq_true, decide_eq_true_eq] at hab
    rw [hasSub_cons] at h
    have : isPrefOf dslash (a :: b :: rest) = true := by
      simp [dslash, isPrefOf, hab.1, hab.2]
    simp [this] at h
  | case4 a b rest hab ih =>
    intro h
    rw [hasSub_cons, Bool.or_eq_false_iff] at h
    rw [collapseRuns_cons₂, if_neg hab, ih h.2]

/-- `replaceAll` preserves the first character of a nonempty string. -/
theorem replaceAll_head (c : Char) (r : List Char) :
    ∃ t, replaceAll (c :: r) = c :: t := by
  cases r with
  | nil => exact ⟨[], rfl⟩
  | cons b r2 =>
    by_cases h : (c = '/' && b = '/') = true
    · have hc : c = '/' := by
        simp only [Bool.and_eq_true, decide_eq_true_eq] at h
        exact h.1
      refine ⟨replaceAll r2, ?_⟩
      rw [replaceAll_cons₂, if_pos h, hc]
    · exact ⟨replaceAll (b :: r2), by rw [replaceAll_cons₂, if_neg h]⟩

/-- One pass of `replaceAll` does not change the run-collapsed form (stated
together with a slash-prefixed variant to make the induction go through). -/
theorem collapseRuns_replaceAll_aux :
    ∀ n : Nat, ∀ s : List Char, s.length ≤ n →
      collapseRuns (replaceAll s) = collapseRuns s ∧
      collapseRuns ('/' :: replaceAll s) = collapseRuns ('/' :: s) := by
  intro n
  induction n with
  | zero =>
    intro s hs
    have : s = [] := List.eq_nil_of_length_eq_zero (Nat.le_zero.mp hs)
    subst this
    exact ⟨rfl, rfl⟩
  | succ n ih =>
    intro s hs
    match s with
    | [] => exact ⟨rfl, rfl⟩
    | [c] => exact ⟨rfl, rfl⟩
    | a :: b :: r =>
      simp only [List.length_cons] at hs
      by_cases hab : (a = '/' && b = '/') = true
      · obtain ⟨ha, hb⟩ : a = '/' ∧ b = '/' := by
          simpa only [Bool.and_eq_true, decide_eq_true_eq] using hab
        subst ha; subst hb
        have hr := ih r (by omega)
        constructor
        · rw [replaceAll_cons₂, if_pos hab, collapseRuns_cons₂, if_pos hab]
          have hbr : ∀ t : List Char, collapseRuns ('/' :: '/' :: t) = collapseRuns ('/' :: t) := by
            intro t
            rw [collapseRuns_cons₂, if_pos (by simp)]
          exact hr.2
        · rw [replaceAll_cons₂, if_pos hab]
          have h2 : collapseRuns ('/' :: '/' :: replaceAll r) = collapseRuns ('/' :: replaceAll r) := by
            rw [collapseRuns_cons₂, if_pos (by simp)]
          have h3 : collapseRuns ('/' :: '/' :: '/' :: r) = collapseRuns ('/' :: '/' :: r) := by
            rw [collapseRuns_cons₂ '/' '/' ('/' :: r), if_pos (by simp)]
          have h4 : collapseRuns ('/' :: '/' :: r) = collapseRuns ('/' :: r) := by
            rw [collapseRuns_cons₂, if_pos (by simp)]
          rw [h2, h3, h4]
          exact hr.2
      · have hbr := ih (b :: r) (by simp only [List.length_cons]; omega)
        obtain ⟨t, ht⟩ := replaceAll_head b r
        have hA : collapseRuns (replaceAll (a :: b :: r)) = collapseRuns (a :: b :: r) := by
          rw [replaceAll_cons₂, if_neg hab, ht, collapseRuns_cons₂, if_neg hab,
            collapseRuns_cons₂ a b r, if_neg hab, ← ht, hbr.1]
        refine ⟨hA, ?_⟩
        by_cases ha : a = '/'
        · subst ha
          have hcond : (('/' : Char) = '/' && '/' = '/') = true := by simp
          rw [replaceAll_cons₂, if_neg hab,
            collapseRuns_cons₂ '/' '/' (replaceAll (b :: r)), if_pos hcond,
            collapseRuns_cons₂ '/' '/' (b :: r), if_pos hcond]
          exact hbr.2
        · have hcond : ¬(('/' : Char) = '/' && a = '/') = true := by
            simp [ha]
          rw [collapseRuns_cons₂ '/' a (b :: r), if_neg hcond]
          rw [replaceAll_cons₂, if_neg hab,
            collapseRuns_cons₂ '/' a (replaceAll (b :: r)), if_neg hcond]
          have : collapseRuns (a :: replaceAll (b :: r)) = collapseRuns (a :: b :: r) := by
            rw [ht, collapseRuns_cons₂, if_neg hab, ← ht, hbr.1,
              collapseRuns_cons₂ a b r, if_neg hab]
          rw [this]

theorem collapseRuns_replaceAll (s : List Char) :
    collapseRuns (replaceAll s) = collapseRuns s :=
  (collapseRuns_replaceAll_aux s.length s (Nat.le_refl _)).1

/-- The code's fueled while-loop computes the spec-side run collapse. -/
theorem collapseSteps_eq_collapseRuns :
    ∀ n : Nat, ∀ s : List Char, s.length ≤ n → collapseSteps n s = collapseRuns s := by
  intro n
  induction n with
  | zero =>
    intro s hs
    have : s = [] := List.eq_nil_of_length_eq_zero (Nat.le_zero.mp hs)
    subst this
    rfl
  | succ n ih =>
    intro s hs
    by_cases h : hasSub dslash s = true
    · rw [collapseSteps, if_pos h,
        ih _ (by have := replaceAll_length_lt s h; omega),
        collapseRuns_replaceAll]
    · rw [collapseSteps, if_neg h,
        collapseRuns_of_not_hasSub s (Bool.eq_false_iff.mpr h)]

theorem collapseLoop_eq_collapseRuns (s : List Char) :
    collapseLoop s = collapseRuns s :=
  collapseSteps_eq_collapseRuns s.length s (Nat.le_refl _)

/-- JSON value tree, the shape of documents produced by `json.loads`.
Objects are insertion-ordered key/value sequences (Python dicts preserve
insertion order); numbers are carried as integers (the settings documents
hold no floats, and float formatting is not modelled). -/
inductive Json where
  | null : Json
  | bool : Bool → Json
  | num : Int → Json
  | str : String → Json
  | arr : List Json → Json
  | obj : List (String × Json) → Json

/-- The element rewrite inside a path-bearing list:
`_norm_path_string(v) if isinstance(v, str) else v`. -/
def normElem : Json → Json
  | Json.str s => Json.str (norm_path_string s)
  | v => v

/-- `d[k] = v` on an insertion-ordered dict: replace the value of the first
binding of `k`, leaving everything else in place. -/
def setKey : List (String × Json) → String → Json → List (String × Json)
  | [], _, _ => []
  | (k', v') :: rest, k, v =>
    if k' = k then (k', v) :: rest else (k', v') :: setKey rest k v

/-- `d.get(k)` on an insertion-ordered dict: the value of the first binding
of `k`, if any. -/
def getKey (k : String) : List (String × Json) → Option Json
  | [] => none
  | (k', v) :: rest => if k' = k then some v else getKey k rest

/-- The per-key step shared by both loops of `_to_linux_variant`:
`if isinstance(d.get(key), list): d[key] = [f(v) for v in d[key]]`. -/
def normListField (f : Json → Json) (o : List (String × Json)) (k : String) :
    List (String × Json) :=
  match getKey k o with
  | some (Json.arr xs) => setKey o k (Json.arr (List.map f xs))
  | _ => o

/-- The first loop of `_to_linux_variant`, over the keys
`("skills", "extensions", "themes")`. -/
def normTop (o : List (String × Json)) : List (String × Json) :=
  normListField normElem
    (normListField normElem (normListField normElem o "skills") "extensions")
    "themes"

/-- The inner loop body for one element of `packages`, over the keys
`("extensions", "skills", "themes", "prompts")`. -/
def normPkgFields (o : List (String × Json)) : List (String × Json) :=
  normListField normElem
    (normListField normElem
      (normListField normElem (normListField normElem o "extensions") "skills")
      "themes")
    "prompts"

/-- One element of the `packages` list: non-dict elements are skipped
(`if not isinstance(pkg, dict): continue`). -/
def normPkg : Json → Json
  | Json.obj fields => Json.obj (normPkgFields fields)
  | v => v

/-- The `packages` handling of `_to_linux_variant`. -/
def normPackages (o : List (String × Json)) : List (String × Json) :=
  normListField normPkg o "packages"

/-- The full object rewrite of `_to_linux_variant` on a dict. -/
def normObjFields (o : List (String × Json)) : List (String × Json) :=
  normPackages (normTop o)

/-- Embedding of `_to_linux_variant`.  The function's deep copy
(`json.loads(json.dumps(data))`) is the identity on immutable values.  It
then calls `.get` on the copy, which only dicts support: a non-object
document raises `AttributeError`, modelled as `none`. -/
def to_linux_variant : Json → Option Json
  | Json.obj fields => some (Json.obj (normObjFields fields))
  | _ => none

example : to_linux_variant (Json.obj [("skills", Json.arr [Json.str "a\\b"])]) =
    some (Json.obj [("skills", Json.arr [Json.str "a/b"])]) := rfl

example : to_linux_variant (Json.arr []) = none := rfl

example : norm_path_string "C:\\Users\\me\\.pi\\skills\\x.json" = "C:/Users/me/.pi/skills/x.json" := by decide

example : norm_path_string "a//b///c" = "a/b/c" := by decide

example : norm_path_string "https://example.com//pkg" = "https://example.com//pkg" := by decide

theorem mem_replaceAll {c : Char} : ∀ s : List Char, c ∈ replaceAll s → c ∈ s := by
  intro s
  induction s using replaceAll.induct with
  | case1 => simp [replaceAll]
  | case2 d => simp [replaceAll]
  | case3 a b rest hab ih =>
    intro h
    rw [replaceAll_cons₂, if_pos hab] at h
    obtain ⟨ha, _⟩ : a = '/' ∧ b = '/' := by
      simpa only [Bool.and_eq_true, decide_eq_true_eq] using hab
    rcases List.mem_cons.mp h with h1 | h2
    · rw [h1, ha]
      exact List.mem_cons_self _ _
    · exact List.mem_cons_of_mem a (List.mem_cons_of_mem b (ih h2))
  | case4 a b rest hab ih =>
    intro h
    rw [replaceAll_cons₂, if_neg hab] at h
    rcases List.mem_cons.mp h with h1 | h2
    · rw [h1]
      exact List.mem_cons_self _ _
    · exact List.mem_cons_of_mem a (ih h2)

theorem mem_collapseSteps {c : Char} :
    ∀ n : Nat, ∀ s : List Char, c ∈ collapseSteps n s → c ∈ s := by
  intro n
  induction n with
  | zero => intro s h; exact h
  | succ n ih =>
    intro s h
    by_cases hd : hasSub dslash s = true
    · rw [collapseSteps, if_pos hd] at h
      exact mem_replaceAll s (ih _ h)
    · rwa [collapseSteps, if_neg hd] at h

theorem bsToSlash_ne_bs (c : Char) : bsToSlash c ≠ '\\' := by
  by_cases h : c = '\\'
  · rw [bsToSlash, if_pos h]
    decide
  · rw [bsToSlash, if_neg h]
    exact h

theorem not_mem_map_bsToSlash (l : List Char) : '\\' ∉ List.map bsToSlash l := by
  intro h
  obtain ⟨c, _, he⟩ := List.mem_map.mp h
  exact bsToSlash_ne_bs c he

theorem map_bsToSlash_id : ∀ l : List Char, '\\' ∉ l → List.map bsToSlash l = l := by
  intro l
  induction l with
  | nil => intro _; rfl
  | cons a t ih =>
    intro h
    have ha : a ≠ '\\' := fun he => h (he ▸ List.mem_cons_self a t)
    have ht : '\\' ∉ t := fun hm => h (List.mem_cons_of_mem a hm)
    have hb : bsToSlash a = a := by
      rw [bsToSlash, if_neg (fun he => ha he)]
    simp only [List.map_cons, hb, ih ht]

theorem isPrefOf_imp_hasSub (pat l : List Char) (h : isPrefOf pat l = true) :
    hasSub pat l = true := by
  cases l with
  | nil => exact h
  | cons b bs =>
    rw [hasSub_cons, Bool.or_eq_true]
    exact Or.inl h

theorem hasSub_scheme_imp_dslash : ∀ l : List Char,
    hasSub schemeMark l = true → hasSub dslash l = true := by
  intro l
  induction l with
  | nil => intro h; simp [hasSub, isPrefOf, schemeMark] at h
  | cons b bs ih =>
    intro h
    rw [hasSub_cons, Bool.or_eq_true] at h
    rw [hasSub_cons, Bool.or_eq_true]
    rcases h with h1 | h2
    · have h2 : isPrefOf dslash bs = true := by
        have h3 : (decide (':' = b) && isPrefOf dslash bs) = true := h1
        simp only [Bool.and_eq_true] at h3
        exact h3.2
      exact Or.inr (isPrefOf_imp_hasSub dslash bs h2)
    · exact Or.inr (ih h2)

theorem collapseSteps_of_not_hasSub (n : Nat) (s : List Char)
    (h : hasSub dslash s = false) : collapseSteps n s = s := by
  cases n with
  | zero => rfl
  | succ n => rw [collapseSteps, if_neg (by simp [h])]

/-- `norm_path_string` written as a conditional (mirrors the source's early
return). -/
theorem norm_path_string_ite (v : String) :
    norm_path_string v =
      if hasSub schemeMark v.toList = true then v
      else String.mk (collapseLoop (List.map bsToSlash v.toList)) := rfl

/-- A character list with no `"//"` and no backslash is a fixed point of the
whole per-string normalization. -/
theorem norm_path_string_mk_fixed (L : List Char)
    (hdsl : hasSub dslash L = false) (hnb : '\\' ∉ L) :
    norm_path_string (String.mk L) = String.mk L := by
  rw [norm_path_string_ite]
  have hs : hasSub schemeMark L = false := by
    cases hc : hasSub schemeMark L with
    | false => rfl
    | true => exact absurd (hasSub_scheme_imp_dslash L hc) (by simp [hdsl])
  have hs2 : ¬ hasSub schemeMark (String.mk L).toList = true := by
    show ¬ hasSub schemeMark L = true
    simp [hs]
  rw [if_neg hs2]
  have h1 : List.map bsToSlash (String.mk L).toList = L := by
    show List.map bsToSlash L = L
    exact map_bsToSlash_id L hnb
  rw [h1, collapseLoop, collapseSteps_of_not_hasSub _ _ hdsl]

/-- `_norm_path_string` is idempotent. -/
theorem norm_path_string_idem (v : String) :
    norm_path_string (norm_path_string v) = norm_path_string v := by
  by_cases h : hasSub schemeMark v.toList = true
  · rw [norm_path_string_ite v, if_pos h]
    rw [norm_path_string_ite v, if_pos h]
  · rw [norm_path_string_ite v, if_neg h]
    exact norm_path_string_mk_fixed _ (hasSub_dslash_collapseLoop _)
      (fun hm => not_mem_map_bsToSlash _ (mem_collapseSteps _ _ hm))

theorem getKey_cons (k k' : String) (v : Json) (rest : List (String × Json)) :
    getKey k ((k', v) :: rest) = if k' = k then some v else getKey k rest := rfl

theorem getKey_setKey_self (o : List (String × Json)) (k : String) (v w : Json)
    (h : getKey k o = some w) :
    getKey k (setKey o k v) = some v := by
  induction o with
  | nil => simp [getKey] at h
  | cons p rest ih =>
    obtain ⟨k', v'⟩ := p
    by_cases hk : k' = k
    · rw [setKey, if_pos hk, getKey_cons, if_pos hk]
    · rw [getKey_cons, if_neg hk] at h
      rw [setKey, if_neg hk, getKey_cons, if_neg hk]
      exact ih h

theorem getKey_setKey_ne (o : List (String × Json)) (k k' : String) (v : Json)
    (h : k' ≠ k) :
    getKey k' (setKey o k v) = getKey k' o := by
  induction o with
  | nil => rfl
  | cons p rest ih =>
    obtain ⟨k₁, v₁⟩ := p
    by_cases hk : k₁ = k
    · have hne : ¬ k₁ = k' := fun he => h (he ▸ hk)
      rw [setKey, if_pos hk, getKey_cons, getKey_cons, if_neg hne, if_neg hne]
    · rw [setKey, if_neg hk, getKey_cons, getKey_cons]
      by_cases he : k₁ = k'
      · rw [if_pos he, if_pos he]
      · rw [if_neg he, if_neg he]
        exact ih

/-- Writing back the value a key already holds changes nothing. -/
theorem setKey_getKey_self (o : List (String × Json)) (k : String) (v : Json)
    (h : getKey k o = some v) : setKey o k v = o := by
  induction o with
  | nil => rfl
  | cons p rest ih =>
    obtain ⟨k₁, v₁⟩ := p
    by_cases hk : k₁ = k
    · rw [getKey_cons, if_pos hk] at h
      rw [setKey, if_pos hk]
      injection h with h
      rw [h]
    · rw [getKey_cons, if_neg hk] at h
      rw [setKey, if_neg hk, ih h]

theorem normListField_eq (f : Json → Json) (o : List (String × Json)) (k : String) :
    normListField f o k =
      match getKey k o with
      | some (Json.arr xs) => setKey o k (Json.arr (List.map f xs))
      | _ => o := rfl

theorem getKey_normListField_ne (f : Json → Json) (o : List (String × Json))
    (k k' : String) (h : k' ≠ k) :
    getKey k' (normListField f o k) = getKey k' o := by
  rw [normListField_eq]
  cases hl : getKey k o with
  | none => rfl
  | some v =>
    cases v with
    | arr xs => exact getKey_setKey_ne o k k' _ h
    | null => rfl
    | bool b => rfl
    | num n => rfl
    | str s => rfl
    | obj fs => rfl

/-- If the value already sitting under `k` is a fixed point of the mapping,
the per-key step does nothing. -/
theorem normListField_fix (f : Json → Json) (o : List (String × Json)) (k : String)
    (h : ∀ xs, getKey k o = some (Json.arr xs) → List.map f xs = xs) :
    normListField f o k = o := by
  rw [normListField_eq]
  cases hl : getKey k o with
  | none => rfl
  | some v =>
    cases v with
    | arr xs =>
      show setKey o k (Json.arr (List.map f xs)) = o
      rw [h xs hl]
      exact setKey_getKey_self o k (Json.arr xs) hl
    | null => rfl
    | bool b => rfl
    | num n => rfl
    | str s => rfl
    | obj fs => rfl

/-- After the per-key step, the list sitting under `k` is a fixed point of
the mapping (given the mapping is idempotent). -/
theorem getKey_normListField_self (f : Json → Json) (o : List (String × Json))
    (k : String) (hf : ∀ x, f (f x) = f x) :
    ∀ xs, getKey k (normListField f o k) = some (Json.arr xs) →
      List.map f xs = xs := by
  intro xs hxs
  rw [normListField_eq] at hxs
  cases hl : getKey k o with
  | none =>
    rw [hl] at hxs
    rw [hxs] at hl
    simp at hl
  | some v =>
    cases v with
    | arr zs =>
      rw [hl] at hxs
      rw [getKey_setKey_self o k _ _ hl] at hxs
      injection hxs with hxs
      injection hxs with hxs
      rw [← hxs, List.map_map]
      exact List.map_congr_left (fun a _ => hf a)
    | null => rw [hl] at hxs; rw [hxs] at hl; simp at hl
    | bool b => rw [hl] at hxs; rw [hxs] at hl; simp at hl
    | num n => rw [hl] at hxs; rw [hxs] at hl; simp at hl
    | str s => rw [hl] at hxs; rw [hxs] at hl; simp at hl
    | obj fs => rw [hl] at hxs; rw [hxs] at hl; simp at hl

theorem normElem_idem (x : Json) : normElem (normElem x) = normElem x := by
  cases x with
  | str s =>
    show Json.str (norm_path_string (norm_path_string s)) = Json.str (norm_path_string s)
    rw [norm_path_string_idem]
  | null => rfl
  | bool b => rfl
  | num n => rfl
  | arr xs => rfl
  | obj fs => rfl

theorem normPkgFields_idem (g : List (String × Json)) :
    normPkgFields (normPkgFields g) = normPkgFields g := by
  have hE : ∀ xs, getKey "extensions" (normPkgFields g) = some (Json.arr xs) →
      List.map normElem xs = xs := by
    intro xs hxs
    rw [normPkgFields] at hxs
    rw [getKey_normListField_ne _ _ "prompts" "extensions" (by decide)] at hxs
    rw [getKey_normListField_ne _ _ "themes" "extensions" (by decide)] at hxs
    rw [getKey_normListField_ne _ _ "skills" "extensions" (by decide)] at hxs
    exact getKey_normListField_self normElem _ "extensions" normElem_idem xs hxs
  have hS : ∀ xs, getKey "skills" (normPkgFields g) = some (Json.arr xs) →
      List.map normElem xs = xs := by
    intro xs hxs
    rw [normPkgFields] at hxs
    rw [getKey_normListField_ne _ _ "prompts" "skills" (by decide)] at hxs
    rw [getKey_normListField_ne _ _ "themes" "skills" (by decide)] at hxs
    exact getKey_normListField_self normElem _ "skills" normElem_idem xs hxs
  have hT : ∀ xs, getKey "themes" (normPkgFields g) = some (Json.arr xs) →
      List.map normElem xs = xs := by
    intro xs hxs
    rw [normPkgFields] at hxs
    rw [getKey_normListField_ne _ _ "prompts" "themes" (by decide)] at hxs
    exact getKey_normListField_self normElem _ "themes" normElem_idem xs hxs
  have hP : ∀ xs, getKey "prompts" (normPkgFields g) = some (Json.arr xs) →
      List.map normElem xs = xs := by
    intro xs hxs
    rw [normPkgFields] at hxs
    exact getKey_normListField_self normElem _ "prompts" normElem_idem xs hxs
  show normListField normElem
      (normListField normElem
        (normListField normElem
          (normListField normElem (normPkgFields g) "extensions") "skills")
        "themes")
      "prompts" = normPkgFields g
  rw [normListField_fix _ _ _ hE, normListField_fix _ _ _ hS,
    normListField_fix _ _ _ hT, normListField_fix _ _ _ hP]

theorem normPkg_idem (p : Json) : normPkg (normPkg p) = normPkg p := by
  cases p with
  | obj g =>
    show Json.obj (normPkgFields (normPkgFields g)) = Json.obj (normPkgFields g)
    rw [normPkgFields_idem]
  | null => rfl
  | bool b => rfl
  | num n => rfl
  | str s => rfl
  | arr xs => rfl

theorem normObjFields_idem (g : List (String × Json)) :
    normObjFields (normObjFields g) = normObjFields g := by
  have hS : ∀ xs, getKey "skills" (normObjFields g) = some (Json.arr xs) →
      List.map normElem xs = xs := by
    intro xs hxs
    rw [normObjFields, normPackages, normTop] at hxs
    rw [getKey_normListField_ne _ _ "packages" "skills" (by decide)] at hxs
    rw [getKey_normListField_ne _ _ "themes" "skills" (by decide)] at hxs
    rw [getKey_normListField_ne _ _ "extensions" "skills" (by decide)] at hxs
    exact getKey_normListField_self normElem _ "skills" normElem_idem xs hxs
  have hE : ∀ xs, getKey "extensions" (normObjFields g) = some (Json.arr xs) →
      List.map normElem xs = xs := by
    intro xs hxs
    rw [normObjFields, normPackages, normTop] at hxs
    rw [getKey_normListField_ne _ _ "packages" "extensions" (by decide)] at hxs
    rw [getKey_normListField_ne _ _ "themes" "extensions" (by decide)] at hxs
    exact getKey_normListField_self normElem _ "extensions" normElem_idem xs hxs
  have hT : ∀ xs, getKey "themes" (normObjFields g) = some (Json.arr xs) →
      List.map normElem xs = xs := by
    intro xs hxs
    rw [normObjFields, normPackages, normTop] at hxs
    rw [getKey_normListField_ne _ _ "packages" "themes" (by decide)] at hxs
    exact getKey_normListField_self normElem _ "themes" normElem_idem xs hxs
  have hP : ∀ xs, getKey "packages" (normObjFields g) = some (Json.arr xs) →
      List.map normPkg xs = xs := by
    intro xs hxs
    rw [normObjFields, normPackages] at hxs
    exact getKey_normListField_self normPkg _ "packages" normPkg_idem xs hxs
  show normListField normPkg
      (normListField normElem
        (normListField normElem
          (normListField normElem (normObjFields g) "skills") "extensions")
        "themes")
      "packages" = normObjFields g
  rw [normListField_fix _ _ _ hS, normListField_fix _ _ _ hE,
    normListField_fix _ _ _ hT, normListField_fix _ _ _ hP]

theorem to_linux_variant_obj (fields : List (String × Json)) :
    to_linux_variant (Json.obj fields) = some (Json.obj (normObjFields fields)) := rfl

/-- `_to_linux_variant` is idempotent on the documents it accepts. -/
theorem to_linux_variant_idem (d d' : Json) (h : to_linux_variant d = some d') :
    to_linux_variant d' = some d' := by
  cases d with
  | obj fields =>
    rw [to_linux_variant_obj] at h
    injection h with h
    rw [← h, to_linux_variant_obj, normObjFields_idem]
  | null => simp [to_linux_variant] at h
  | bool b => simp [to_linux_variant] at h
  | num n => simp [to_linux_variant] at h
  | str s => simp [to_linux_variant] at h
  | arr xs => simp [to_linux_variant] at h

mutual

/-- Structural skeleton of a document: every string is blanked, everything
else (keys, ordering, lengths, non-string leaves) is kept.  Two documents
have the same `shape` exactly when they differ at most in string content. -/
def shape : Json → Json
  | Json.null => Json.null
  | Json.bool b => Json.bool b
  | Json.num n => Json.num n
  | Json.str _ => Json.str ""
  | Json.arr xs => Json.arr (shapeList xs)
  | Json.obj fs => Json.obj (shapeFields fs)

def shapeList : List Json → List Json
  | [] => []
  | x :: xs => shape x :: shapeList xs

def shapeFields : List (String × Json) → List (String × Json)
  | [] => []
  | (k, v) :: fs => (k, shape v) :: shapeFields fs

end

theorem shape_str (s : String) : shape (Json.str s) = Json.str "" := by
  simp [shape]

theorem shape_arr (xs : List Json) : shape (Json.arr xs) = Json.arr (shapeList xs) := by
  simp [shape]

theorem shape_obj (fs : List (String × Json)) :
    shape (Json.obj fs) = Json.obj (shapeFields fs) := by
  simp [shape]

theorem shapeList_cons (x : Json) (xs : List Json) :
    shapeList (x :: xs) = shape x :: shapeList xs := by
  simp [shapeList]

theorem shapeFields_cons (k : String) (v : Json) (fs : List (String × Json)) :
    shapeFields ((k, v) :: fs) = (k, shape v) :: shapeFields fs := by
  simp [shapeFields]

theorem shape_normElem (x : Json) : shape (normElem x) = shape x := by
  cases x with
  | str s =>
    show shape (Json.str (norm_path_string s)) = shape (Json.str s)
    rw [shape_str, shape_str]
  | null => rfl
  | bool b => rfl
  | num n => rfl
  | arr xs => rfl
  | obj fs => rfl

theorem shapeList_map (f : Json → Json) (hf : ∀ x, shape (f x) = shape x) :
    ∀ xs : List Json, shapeList (List.map f xs) = shapeList xs := by
  intro xs
  induction xs with
  | nil => rfl
  | cons x xs ih =>
    rw [List.map_cons, shapeList_cons, shapeList_cons, hf, ih]

theorem shapeFields_setKey (o : List (String × Json)) (k : String) (v w : Json)
    (hl : getKey k o = some w) (hs : shape v = shape w) :
    shapeFields (setKey o k v) = shapeFields o := by
  induction o with
  | nil => rfl
  | cons p rest ih =>
    obtain ⟨k₁, v₁⟩ := p
    by_cases hk : k₁ = k
    · rw [getKey_cons, if_pos hk] at hl
      injection hl with hl
      rw [setKey, if_pos hk, shapeFields_cons, shapeFields_cons, hs, hl]
    · rw [getKey_cons, if_neg hk] at hl
      rw [setKey, if_neg hk, shapeFields_cons, shapeFields_cons, ih hl]

theorem shapeFields_normListField (f : Json → Json)
    (hf : ∀ x, shape (f x) = shape x) (o : List (String × Json)) (k : String) :
    shapeFields (normListField f o k) = shapeFields o := by
  rw [normListField_eq]
  cases hl : getKey k o with
  | none => rfl
  | some v =>
    cases v with
    | arr xs =>
      show shapeFields (setKey o k (Json.arr (List.map f xs))) = shapeFields o
      refine shapeFields_setKey o k _ _ hl ?_
      rw [shape_arr, shape_arr, shapeList_map f hf]
    | null => rfl
    | bool b => rfl
    | num n => rfl
    | str s => rfl
    | obj fs => rfl

theorem shape_normPkg (p : Json) : shape (normPkg p) = shape p := by
  cases p with
  | obj g =>
    show shape (Json.obj (normPkgFields g)) = shape (Json.obj g)
    rw [shape_obj, shape_obj, normPkgFields,
      shapeFields_normListField normElem shape_normElem,
      shapeFields_normListField normElem shape_normElem,
      shapeFields_normListField normElem shape_normElem,
      shapeFields_normListField normElem shape_normElem]
  | null => rfl
  | bool b => rfl
  | num n => rfl
  | str s => rfl
  | arr xs => rfl

theorem shapeFields_normObjFields (o : List (String × Json)) :
    shapeFields (normObjFields o) = shapeFields o := by
  rw [normObjFields, normPackages, normTop,
    shapeFields_normListField normPkg shape_normPkg,
    shapeFields_normListField normElem shape_normElem,
    shapeFields_normListField normElem shape_normElem,
    shapeFields_normListField normElem shape_normElem]

/-- `_to_linux_variant` preserves the structural skeleton of its input. -/
theorem shape_to_linux_variant (d d' : Json) (h : to_linux_variant d = some d') :
    shape d' = shape d := by
  cases d with
  | obj fields =>
    rw [to_linux_variant_obj] at h
    injection h with h
    rw [← h, shape_obj, shape_obj, shapeFields_normObjFields]
  | null => simp [to_linux_variant] at h
  | bool b => simp [to_linux_variant] at h
  | num n => simp [to_linux_variant] at h
  | str s => simp [to_linux_variant] at h
  | arr xs => simp [to_linux_variant] at h

/-- Decimal digit character for a value below ten. -/
def digitChar (n : Nat) : Char :=
  match n with
  | 0 => '0' | 1 => '1' | 2 => '2' | 3 => '3' | 4 => '4'
  | 5 => '5' | 6 => '6' | 7 => '7' | 8 => '8' | _ => '9'

def natToDigitsAux : Nat → Nat → List Char
  | 0, _ => []
  | fuel + 1, n =>
    if n < 10 then [digitChar n]
    else natToDigitsAux fuel (n / 10) ++ [digitChar (n % 10)]

/-- Decimal digits of a natural number, most significant first. -/
def natToDigits (n : Nat) : List Char := natToDigitsAux (n + 1) n

/-- Decimal rendering of an integer. -/
def intToChars (i : Int) : List Char :=
  if i < 0 then '-' :: natToDigits i.natAbs else natToDigits i.toNat

def digitVal (c : Char) : Option Nat :=
  if '0' ≤ c ∧ c ≤ '9' then some (c.toNat - 48) else none

def hexDigitChar (n : Nat) : Char :=
  match n with
  | 0 => '0' | 1 => '1' | 2 => '2' | 3 => '3' | 4 => '4' | 5 => '5' | 6 => '6'
  | 7 => '7' | 8 => '8' | 9 => '9' | 10 => 'a' | 11 => 'b' | 12 => 'c' | 13 => 'd'
  | 14 => 'e' | _ => 'f'

def hexVal (c : Char) : Option Nat :=
  if '0' ≤ c ∧ c ≤ '9' then some (c.toNat - 48)
  else if 'a' ≤ c ∧ c ≤ 'f' then some (c.toNat - 87)
  else if 'A' ≤ c ∧ c ≤ 'F' then some (c.toNat - 55)
  else none

/-- JSON escaping of one string character: the two mandatory escapes, the
common control shortcuts, and `\u00XX` for the remaining control
characters. -/
def escapeChar (c : Char) : List Char :=
  if c = '"' then ['\\', '"']
  else if c = '\\' then ['\\', '\\']
  else if c = '\n' then ['\\', 'n']
  else if c = '\t' then ['\\', 't']
  else if c = '\r' then ['\\', 'r']
  else if c.toNat < 32 then
    ['\\', 'u', '0', '0', hexDigitChar (c.toNat / 16), hexDigitChar (c.toNat % 16)]
  else [c]

/-- A JSON string literal: quote, escaped characters, quote. -/
def encodeStr (s : String) : List Char :=
  '"' :: ((List.map escapeChar s.toList).flatten ++ ['"'])

mutual

/-- Modelled from the spec: `json.dumps(doc, indent=2)` is not part of the
repository; the spec fixes its observable format — JSON text with two-space
indentation.  `printV ind d` renders `d` at indentation level `ind`. -/
def printV : Nat → Json → List Char
  | _, Json.null => ['n', 'u', 'l', 'l']
  | _, Json.bool true => ['t', 'r', 'u', 'e']
  | _, Json.bool false => ['f', 'a', 'l', 's', 'e']
  | _, Json.num i => intToChars i
  | _, Json.str s => encodeStr s
  | _, Json.arr [] => ['[', ']']
  | ind, Json.arr (x :: xs) =>
    '[' :: '\n' :: (List.replicate (ind + 2) ' ' ++ printV (ind + 2) x ++
      printItems (ind + 2) xs ++ '\n' :: (List.replicate ind ' ' ++ [']']))
  | _, Json.obj [] => ['{', '}']
  | ind, Json.obj ((k, v) :: fs) =>
    '{' :: '\n' :: (List.replicate (ind + 2) ' ' ++ encodeStr k ++ ':' :: ' ' ::
      (printV (ind + 2) v ++ printMembers (ind + 2) fs ++
        '\n' :: (List.replicate ind ' ' ++ ['}'])))

def printItems : Nat → List Json → List Char
  | _, [] => []
  | ind, x :: xs =>
    ',' :: '\n' :: (List.replicate ind ' ' ++ printV ind x ++ printItems ind xs)

def printMembers : Nat → List (String × Json) → List Char
  | _, [] => []
  | ind, (k, v) :: fs =>
    ',' :: '\n' :: (List.replicate ind ' ' ++ encodeStr k ++ ':' :: ' ' ::
      (printV ind v ++ printMembers ind fs))

end

/-- Modelled from the spec: serialization of a document (the canonical and
normalized files are "plain JSON, 2-space indented"). -/
def dumps (d : Json) : String := String.mk (printV 0 d)

def isWsChar (c : Char) : Bool := c = ' ' || c = '\n' || c = '\t' || c = '\r'

def skipWs (s : List Char) : List Char := List.dropWhile isWsChar s

def unescapeChar (c : Char) : Option Char :=
  if c = '"' then some '"'
  else if c = '\\' then some '\\'
  else if c = '/' then some '/'
  else if c = 'n' then some '\n'
  else if c = 't' then some '\t'
  else if c = 'r' then some '\r'
  else if c = 'b' then some (Char.ofNat 8)
  else if c = 'f' then some (Char.ofNat 12)
  else none

/-- Cons a decoded character onto a string-parser result. -/
def consStr (c : Char) : Option (List Char × List Char) → Option (List Char × List Char)
  | some (cs, r) => some (c :: cs, r)
  | none => none

/-- Four hex digits, as in the `\uXXXX` escape. -/
def parseHex4 : List Char → Option (Nat × List Char)
  | h1 :: h2 :: h3 :: h4 :: rest =>
    match hexVal h1, hexVal h2, hexVal h3, hexVal h4 with
    | some a, some b, some c, some d => some (((a * 16 + b) * 16 + c) * 16 + d, rest)
    | _, _, _, _ => none
  | _ => none

/-- Decode one escape sequence (the text after a backslash): the decoded
character and the remaining input. -/
def decodeEsc : List Char → Option (Char × List Char)
  | [] => none
  | e :: rest2 =>
    if e = 'u' then
      match parseHex4 rest2 with
      | some (n, rest3) => some (Char.ofNat n, rest3)
      | none => none
    else
      match unescapeChar e with
      | some ch => some (ch, rest2)
      | none => none

/-- Body of a JSON string literal after the opening quote: characters until
an unescaped closing quote, decoding escapes.  Fueled by the input length. -/
def parseStrAux : Nat → List Char → Option (List Char × List Char)
  | 0, _ => none
  | _ + 1, [] => none
  | fuel + 1, c :: rest =>
    if c = '"' then some ([], rest)
    else if c = '\\' then
      match decodeEsc rest with
      | some (ch, rest2) => consStr ch (parseStrAux fuel rest2)
      | none => none
    else consStr c (parseStrAux fuel rest)

/-- Digit run parser: consume leading decimal digits into an accumulator. -/
def parseDigitsAux (acc : Nat) : List Char → Nat × List Char
  | [] => (acc, [])
  | c :: rest =>
    match digitVal c with
    | some d => parseDigitsAux (acc * 10 + d) rest
    | none => (acc, c :: rest)

mutual

/-- Modelled from the spec: `json.loads` is not part of the repository; this
is a standard recursive-descent JSON reader (objects, arrays, strings with
escapes, integers, literals), fueled to stay structurally recursive. -/
def parseValue : Nat → List Char → Option (Json × List Char)
  | 0, _ => none
  | fuel + 1, input =>
    match skipWs input with
    | [] => none
    | c :: rest =>
      if c = 'n' then
        match rest with
        | 'u' :: 'l' :: 'l' :: r => some (Json.null, r)
        | _ => none
      else if c = 't' then
        match rest with
        | 'r' :: 'u' :: 'e' :: r => some (Json.bool true, r)
        | _ => none
      else if c = 'f' then
        match rest with
        | 'a' :: 'l' :: 's' :: 'e' :: r => some (Json.bool false, r)
        | _ => none
      else if c = '"' then
        match parseStrAux (rest.length + 1) rest with
        | some (cs, r) => some (Json.str (String.mk cs), r)
        | none => none
      else if c = '-' then
        match rest with
        | d :: _ =>
          if (digitVal d).isSome then
            some (Json.num (-((parseDigitsAux 0 rest).1 : Int)),
              (parseDigitsAux 0 rest).2)
          else none
        | [] => none
      else if (digitVal c).isSome then
        some (Json.num ((parseDigitsAux 0 (c :: rest)).1 : Int),
          (parseDigitsAux 0 (c :: rest)).2)
      else if c = '[' then
        if (skipWs rest).head? = some ']' then some (Json.arr [], (skipWs rest).tail)
        else
          match parseItems fuel rest with
          | some (vs, r) => some (Json.arr vs, r)
          | none => none
      else if c = '{' then
        if (skipWs rest).head? = some '}' then some (Json.obj [], (skipWs rest).tail)
        else
          match parseMembers fuel rest with
          | some (ms, r) => some (Json.obj ms, r)
          | none => none
      else none

def parseItems : Nat → List Char → Option (List Json × List Char)
  | 0, _ => none
  | fuel + 1, s =>
    match parseValue fuel s with
    | some (v, r) =>
      match skipWs r with
      | ',' :: r2 =>
        match parseItems fuel r2 with
        | some (vs, r3) => some (v :: vs, r3)
        | none => none
      | ']' :: r2 => some ([v], r2)
      | _ => none
    | none => none

def parseMembers : Nat → List Char → Option (List (String × Json) × List Char)
  | 0, _ => none
  | fuel + 1, s =>
    match skipWs s with
    | '"' :: r =>
      match parseStrAux (r.length + 1) r with
      | some (cs, r2) =>
        match skipWs r2 with
        | ':' :: r3 =>
          match parseValue fuel r3 with
          | some (v, r4) =>
            match skipWs r4 with
            | ',' :: r5 =>
              match parseMembers fuel r5 with
              | some (ms, r6) => some ((String.mk cs, v) :: ms, r6)
              | none => none
            | '}' :: r5 => some ([(String.mk cs, v)], r5)
            | _ => none
          | none => none
        | _ => none
      | none => none
    | _ => none

end

/-- Modelled from the spec: parse a whole JSON document, requiring only
whitespace after the value (as `json.loads` does). -/
def loads (s : String) : Option Json :=
  match parseValue (s.toList.length + 1) s.toList with
  | some (v, rest) => if (skipWs rest).isEmpty then some v else none
  | none => none

mutual

/-- Fuel measure for the parser: an upper bound on the recursion depth the
reader needs for a printed document. -/
def sizeJ : Json → Nat
  | Json.null => 1
  | Json.bool _ => 1
  | Json.num _ => 1
  | Json.str _ => 1
  | Json.arr [] => 1
  | Json.arr (x :: xs) => 1 + sizeItems (x :: xs)
  | Json.obj [] => 1
  | Json.obj (p :: fs) => 1 + sizeMembers (p :: fs)

def sizeItems : List Json → Nat
  | [] => 0
  | x :: xs => 1 + Nat.max (sizeJ x) (sizeItems xs)

def sizeMembers : List (String × Json) → Nat
  | [] => 0
  | (_, v) :: fs => 1 + Nat.max (sizeJ v) (sizeMembers fs)

end

example : dumps (Json.obj []) = String.mk ['\x7b', '\x7d'] := by decide

example : loads (String.mk ['\x7b', '\x7d']) = some (Json.obj []) := rfl

example : loads (dumps (Json.obj [("a", Json.arr [Json.num 1, Json.str "x"])]) ++ "\n") =
    some (Json.obj [("a", Json.arr [Json.num 1, Json.str "x"])]) := rfl

/-- Condition on the text following a printed number: it must not begin
with a digit (in every context the printer creates, it begins with a comma,
a newline, or is empty). -/
def restOk (rest : List Char) : Prop :=
  ∀ c, rest.head? = some c → digitVal c = none

def digStep (a : Nat) (c : Char) : Nat := a * 10 + (digitVal c).getD 0

theorem digitVal_digitChar : ∀ n : Nat, n < 10 → digitVal (digitChar n) = some n := by
  decide

theorem natToDigitsAux_irrel :
    ∀ f1 n f2 : Nat, n < f1 → n < f2 → natToDigitsAux f1 n = natToDigitsAux f2 n := by
  intro f1
  induction f1 with
  | zero => intro n f2 h1 _; omega
  | succ g ih =>
    intro n f2 h1 h2
    cases f2 with
    | zero => omega
    | succ h =>
      rw [natToDigitsAux, natToDigitsAux]
      by_cases hn : n < 10
      · rw [if_pos hn, if_pos hn]
      · rw [if_neg hn, if_neg hn, ih (n / 10) h (by omega) (by omega)]

theorem natToDigits_eq (n : Nat) :
    natToDigits n =
      if n < 10 then [digitChar n]
      else natToDigits (n / 10) ++ [digitChar (n % 10)] := by
  rw [natToDigits, natToDigitsAux]
  by_cases hn : n < 10
  · rw [if_pos hn, if_pos hn]
  · rw [if_neg hn, if_neg hn, natToDigits,
      natToDigitsAux_irrel n (n / 10) (n / 10 + 1) (by omega) (by omega)]

theorem natToDigits_chars :
    ∀ n c, c ∈ natToDigits n → ∃ m, m < 10 ∧ c = digitChar m := by
  intro n
  induction n using Nat.strong_induction_on with
  | _ n ih =>
    intro c hc
    rw [natToDigits_eq] at hc
    by_cases hn : n < 10
    · rw [if_pos hn] at hc
      rcases List.mem_singleton.mp hc with h
      exact ⟨n, hn, h⟩
    · rw [if_neg hn] at hc
      rcases List.mem_append.mp hc with h | h
      · exact ih (n / 10) (by omega) c h
      · exact ⟨n % 10, by omega, List.mem_singleton.mp h⟩

theorem natToDigits_ne_nil (n : Nat) : natToDigits n ≠ [] := by
  rw [natToDigits_eq]
  by_cases hn : n < 10
  · rw [if_pos hn]; simp
  · rw [if_neg hn]; simp

theorem natToDigits_isSome (n : Nat) :
    ∀ c ∈ natToDigits n, (digitVal c).isSome = true := by
  intro c hc
  obtain ⟨m, hm, he⟩ := natToDigits_chars n c hc
  rw [he, digitVal_digitChar m hm]
  rfl

theorem foldl_natToDigits :
    ∀ n acc : Nat, List.foldl digStep acc (natToDigits n) =
      acc * 10 ^ (natToDigits n).length + n := by
  intro n
  induction n using Nat.strong_induction_on with
  | _ n ih =>
    intro acc
    rw [natToDigits_eq]
    by_cases hn : n < 10
    · rw [if_pos hn]
      show digStep acc (digitChar n) = acc * 10 ^ 1 + n
      rw [digStep, digitVal_digitChar n hn]
      simp [Option.getD]
    · rw [if_neg hn, List.foldl_append, ih (n / 10) (by omega) acc]
      show digStep (acc * 10 ^ (natToDigits (n / 10)).length + n / 10) (digitChar (n % 10)) = _
      rw [digStep, digitVal_digitChar (n % 10) (by omega)]
      simp only [Option.getD, List.length_append, List.length_singleton]
      rw [pow_succ, ← Nat.mul_assoc]
      have hdm : 10 * (n / 10) + n % 10 = n := Nat.div_add_mod n 10
      generalize acc * 10 ^ (natToDigits (n / 10)).length = K
      omega

theorem parseDigitsAux_spec :
    ∀ l : List Char, ∀ acc : Nat, ∀ rest : List Char,
      (∀ c ∈ l, (digitVal c).isSome = true) → restOk rest →
      parseDigitsAux acc (l ++ rest) = (List.foldl digStep acc l, rest) := by
  intro l
  induction l with
  | nil =>
    intro acc rest _ hr
    cases rest with
    | nil => rfl
    | cons c r =>
      have hc : digitVal c = none := hr c rfl
      show parseDigitsAux acc (c :: r) = (acc, c :: r)
      rw [parseDigitsAux, hc]
  | cons c l ih =>
    intro acc rest hl hr
    have hc : (digitVal c).isSome = true := hl c (List.mem_cons_self c l)
    obtain ⟨d, hd⟩ := Option.isSome_iff_exists.mp hc
    show parseDigitsAux acc (c :: (l ++ rest)) = _
    rw [parseDigitsAux, hd]
    show parseDigitsAux (acc * 10 + d) (l ++ rest) = _
    rw [ih (acc * 10 + d) rest (fun x hx => hl x (List.mem_cons_of_mem c hx)) hr]
    have : digStep acc c = acc * 10 + d := by rw [digStep, hd]; rfl
    rw [List.foldl_cons, this]

theorem parse_natToDigits (n : Nat) (rest : List Char) (hr : restOk rest) :
    parseDigitsAux 0 (natToDigits n ++ rest) = (n, rest) := by
  rw [parseDigitsAux_spec (natToDigits n) 0 rest (natToDigits_isSome n) hr,
    foldl_natToDigits]
  simp

def allWs (w : List Char) : Prop := ∀ c ∈ w, isWsChar c = true

theorem skipWs_append (w l : List Char) (hw : allWs w) :
    skipWs (w ++ l) = skipWs l := by
  induction w with
  | nil => rfl
  | cons c w ih =>
    have hc : isWsChar c = true := hw c (List.mem_cons_self c w)
    show List.dropWhile isWsChar (c :: (w ++ l)) = skipWs l
    rw [List.dropWhile_cons, if_pos (by simp [hc])]
    exact ih (fun x hx => hw x (List.mem_cons_of_mem c hx))

theorem skipWs_cons_not (c : Char) (l : List Char) (h : isWsChar c = false) :
    skipWs (c :: l) = c :: l := by
  show List.dropWhile isWsChar (c :: l) = c :: l
  rw [List.dropWhile_cons, if_neg (by simp [h])]

theorem allWs_pad (n : Nat) : allWs (List.replicate n ' ') := by
  intro c hc
  rw [List.eq_of_mem_replicate hc]
  rfl

theorem allWs_nl_pad (n : Nat) : allWs ('\n' :: List.replicate n ' ') := by
  intro c hc
  rcases List.mem_cons.mp hc with h | h
  · rw [h]; rfl
  · rw [List.eq_of_mem_replicate h]; rfl

theorem hexVal_hexDigitChar : ∀ m : Nat, m < 16 → hexVal (hexDigitChar m) = some m := by
  decide

/-- Length of the escaped form is at least one per character. -/
theorem escapeChar_len (c : Char) : 1 ≤ (escapeChar c).length := by
  rw [escapeChar]
  by_cases h1 : c = '"'
  · rw [if_pos h1]; decide
  · rw [if_neg h1]
    by_cases h2 : c = '\\'
    · rw [if_pos h2]; decide
    · rw [if_neg h2]
      by_cases h3 : c = '\n'
      · rw [if_pos h3]; decide
      · rw [if_neg h3]
        by_cases h4 : c = '\t'
        · rw [if_pos h4]; decide
        · rw [if_neg h4]
          by_cases h5 : c = '\r'
          · rw [if_pos h5]; decide
          · rw [if_neg h5]
            by_cases h6 : c.toNat < 32
            · rw [if_pos h6]; simp
            · rw [if_neg h6]; simp

theorem flatten_escape_len (cs : List Char) :
    cs.length ≤ (List.map escapeChar cs).flatten.length := by
  induction cs with
  | nil => simp
  | cons c cs ih =>
    rw [List.map_cons, List.flatten_cons, List.length_append, List.length_cons]
    have := escapeChar_len c
    omega

theorem parseHex4_digits (t : Nat) (ht : t < 32) (l : List Char) :
    parseHex4 ('0' :: '0' :: hexDigitChar (t / 16) :: hexDigitChar (t % 16) :: l) =
      some (t, l) := by
  rw [parseHex4]
  rw [show hexVal '0' = some 0 from rfl,
    hexVal_hexDigitChar (t / 16) (by omega), hexVal_hexDigitChar (t % 16) (by omega)]
  show some (((0 * 16 + 0) * 16 + t / 16) * 16 + t % 16, l) = some (t, l)
  have h : ((0 * 16 + 0) * 16 + t / 16) * 16 + t % 16 = t := by omega
  rw [h]

theorem decodeEsc_u (t : Nat) (ht : t < 32) (l : List Char) :
    decodeEsc ('u' :: '0' :: '0' :: hexDigitChar (t / 16) :: hexDigitChar (t % 16) :: l) =
      some (Char.ofNat t, l) := by
  rw [decodeEsc, if_pos rfl, parseHex4_digits t ht l]

theorem decodeEsc_simple (e ch : Char) (l : List Char)
    (he : ¬ e = 'u') (hu : unescapeChar e = some ch) :
    decodeEsc (e :: l) = some (ch, l) := by
  rw [decodeEsc, if_neg he, hu]

theorem parseStrAux_cons (f : Nat) (c : Char) (l : List Char)
    (h1 : ¬ c = '"') (h2 : ¬ c = '\\') :
    parseStrAux (f + 1) (c :: l) = consStr c (parseStrAux f l) := by
  rw [parseStrAux, if_neg h1, if_neg h2]

theorem parseStrAux_esc (f : Nat) (l : List Char) :
    parseStrAux (f + 1) ('\\' :: l) =
      match decodeEsc l with
      | some (ch, rest2) => consStr ch (parseStrAux f rest2)
      | none => none := by
  rw [parseStrAux, if_neg (by decide), if_pos rfl]

/-- Reading back an escaped string body: the parser on the escaped form of
`cs` followed by the closing quote returns exactly `cs`. -/
theorem parseStr_print :
    ∀ cs : List Char, ∀ fuel : Nat, ∀ rest : List Char, cs.length < fuel →
      parseStrAux fuel ((List.map escapeChar cs).flatten ++ '"' :: rest) =
        some (cs, rest) := by
  intro cs
  induction cs with
  | nil =>
    intro fuel rest hf
    cases fuel with
    | zero => omega
    | succ f =>
      show parseStrAux (f + 1) ('"' :: rest) = some ([], rest)
      rw [parseStrAux, if_pos rfl]
  | cons c cs ih =>
    intro fuel rest hf
    cases fuel with
    | zero => omega
    | succ f =>
      have hrec := ih f rest (by simp at hf; omega)
      rw [List.map_cons, List.flatten_cons, List.append_assoc]
      rw [escapeChar]
      by_cases h1 : c = '"'
      · rw [if_pos h1]
        show parseStrAux (f + 1)
          ('\\' :: '"' :: ((List.map escapeChar cs).flatten ++ '"' :: rest)) = _
        rw [parseStrAux_esc,
          decodeEsc_simple '"' '"' _ (by decide) rfl]
        show consStr '"'
          (parseStrAux f ((List.map escapeChar cs).flatten ++ '"' :: rest)) = _
        rw [hrec]
        show some ('"' :: cs, rest) = some (c :: cs, rest)
        rw [h1]
      · rw [if_neg h1]
        by_cases h2 : c = '\\'
        · rw [if_pos h2]
          show parseStrAux (f + 1)
            ('\\' :: '\\' :: ((List.map escapeChar cs).flatten ++ '"' :: rest)) = _
          rw [parseStrAux_esc,
            decodeEsc_simple '\\' '\\' _ (by decide) rfl]
          show consStr '\\'
            (parseStrAux f ((List.map escapeChar cs).flatten ++ '"' :: rest)) = _
          rw [hrec]
          show some ('\\' :: cs, rest) = some (c :: cs, rest)
          rw [h2]
        · rw [if_neg h2]
          by_cases h3 : c = '\n'
          · rw [if_pos h3]
            show parseStrAux (f + 1)
              ('\\' :: 'n' :: ((List.map escapeChar cs).flatten ++ '"' :: rest)) = _
            rw [parseStrAux_esc,
              decodeEsc_simple 'n' '\n' _ (by decide) rfl]
            show consStr '\n'
              (parseStrAux f ((List.map escapeChar cs).flatten ++ '"' :: rest)) = _
            rw [hrec]
            show some ('\n' :: cs, rest) = some (c :: cs, rest)
            rw [h3]
          · rw [if_neg h3]
            by_cases h4 : c = '\t'
            · rw [if_pos h4]
              show parseStrAux (f + 1)
                ('\\' :: 't' :: ((List.map escapeChar cs).flatten ++ '"' :: rest)) = _
              rw [parseStrAux_esc,
                decodeEsc_simple 't' '\t' _ (by decide) rfl]
              show consStr '\t'
                (parseStrAux f ((List.map escapeChar cs).flatten ++ '"' :: rest)) = _
              rw [hrec]
              show some ('\t' :: cs, rest) = some (c :: cs, rest)
              rw [h4]
            · rw [if_neg h4]
              by_cases h5 : c = '\r'
              · rw [if_pos h5]
                show parseStrAux (f + 1)
                  ('\\' :: 'r' :: ((List.map escapeChar cs).flatten ++ '"' :: rest)) = _
                rw [parseStrAux_esc,
                  decodeEsc_simple 'r' '\r' _ (by decide) rfl]
                show consStr '\r'
                  (parseStrAux f ((List.map escapeChar cs).flatten ++ '"' :: rest)) = _
                rw [hrec]
                show some ('\r' :: cs, rest) = some (c :: cs, rest)
                rw [h5]
              · rw [if_neg h5]
                by_cases h6 : c.toNat < 32
                · rw [if_pos h6]
                  show parseStrAux (f + 1)
                    ('\\' :: 'u' :: '0' :: '0' :: hexDigitChar (c.toNat / 16) ::
                      hexDigitChar (c.toNat % 16) ::
                        ((List.map escapeChar cs).flatten ++ '"' :: rest)) = _
                  rw [parseStrAux_esc, decodeEsc_u c.toNat h6 _]
                  show consStr (Char.ofNat c.toNat)
                    (parseStrAux f ((List.map escapeChar cs).flatten ++ '"' :: rest)) = _
                  rw [hrec]
                  show some (Char.ofNat c.toNat :: cs, rest) = some (c :: cs, rest)
                  rw [Char.ofNat_toNat]
                · rw [if_neg h6]
                  show parseStrAux (f + 1)
                    (c :: ((List.map escapeChar cs).flatten ++ '"' :: rest)) = _
                  rw [parseStrAux_cons f c _ h1 h2, hrec]
                  rfl

theorem printV_null (ind : Nat) : printV ind Json.null = ['n', 'u', 'l', 'l'] := by
  rw [printV]

theorem printV_true (ind : Nat) : printV ind (Json.bool true) = ['t', 'r', 'u', 'e'] := by
  rw [printV]

theorem printV_false (ind : Nat) :
    printV ind (Json.bool false) = ['f', 'a', 'l', 's', 'e'] := by
  rw [printV]

theorem printV_num (ind : Nat) (i : Int) : printV ind (Json.num i) = intToChars i := by
  rw [printV]

theorem printV_str (ind : Nat) (s : String) : printV ind (Json.str s) = encodeStr s := by
  rw [printV]

theorem printV_arr_nil (ind : Nat) : printV ind (Json.arr []) = ['[', ']'] := by
  rw [printV]

theorem printV_arr_cons (ind : Nat) (x : Json) (xs : List Json) :
    printV ind (Json.arr (x :: xs)) =
      '[' :: '\n' :: (List.replicate (ind + 2) ' ' ++ printV (ind + 2) x ++
        printItems (ind + 2) xs ++ '\n' :: (List.replicate ind ' ' ++ [']'])) := by
  rw [printV]

theorem printV_obj_nil (ind : Nat) : printV ind (Json.obj []) = ['{', '}'] := by
  rw [printV]

theorem printV_obj_cons (ind : Nat) (k : String) (v : Json) (fs : List (String × Json)) :
    printV ind (Json.obj ((k, v) :: fs)) =
      '{' :: '\n' :: (List.replicate (ind + 2) ' ' ++ encodeStr k ++ ':' :: ' ' ::
        (printV (ind + 2) v ++ printMembers (ind + 2) fs ++
          '\n' :: (List.replicate ind ' ' ++ ['}']))) := by
  rw [printV]

theorem printItems_nil (ind : Nat) : printItems ind [] = [] := by
  rw [printItems]

theorem printItems_cons (ind : Nat) (x : Json) (xs : List Json) :
    printItems ind (x :: xs) =
      ',' :: '\n' :: (List.replicate ind ' ' ++ printV ind x ++ printItems ind xs) := by
  rw [printItems]

theorem printMembers_nil (ind : Nat) : printMembers ind [] = [] := by
  rw [printMembers]

theorem printMembers_cons (ind : Nat) (k : String) (v : Json) (fs : List (String × Json)) :
    printMembers ind ((k, v) :: fs) =
      ',' :: '\n' :: (List.replicate ind ' ' ++ encodeStr k ++ ':' :: ' ' ::
        (printV ind v ++ printMembers ind fs)) := by
  rw [printMembers]

/-- The character class a printed value can start with: not whitespace, not
a closing bracket, not a digit-run continuation issue. -/
def goodHead (c : Char) : Prop :=
  isWsChar c = false ∧ c ≠ ']' ∧ c ≠ '}'

theorem digitChar_goodHead : ∀ m : Nat, m < 10 →
    isWsChar (digitChar m) = false ∧ digitChar m ≠ ']' ∧ digitChar m ≠ '}' := by
  decide

theorem intToChars_head (i : Int) :
    ∃ c t, intToChars i = c :: t ∧ goodHead c := by
  rw [intToChars]
  by_cases hi : i < 0
  · rw [if_pos hi]
    exact ⟨'-', natToDigits i.natAbs, rfl, by decide, by decide, by decide⟩
  · rw [if_neg hi]
    cases hne : natToDigits i.toNat with
    | nil => exact absurd hne (natToDigits_ne_nil _)
    | cons c t =>
      have hc : c ∈ natToDigits i.toNat := by rw [hne]; exact List.mem_cons_self c t
      obtain ⟨m, hm, he⟩ := natToDigits_chars _ c hc
      obtain ⟨w1, w2, w3⟩ := digitChar_goodHead m hm
      exact ⟨c, t, rfl, by rw [he]; exact w1, by rw [he]; exact w2, by rw [he]; exact w3⟩

theorem printV_head (ind : Nat) (d : Json) :
    ∃ c t, printV ind d = c :: t ∧ goodHead c := by
  cases d with
  | null => exact ⟨'n', _, printV_null ind, by decide, by decide, by decide⟩
  | bool b =>
    cases b with
    | true => exact ⟨'t', _, printV_true ind, by decide, by decide, by decide⟩
    | false => exact ⟨'f', _, printV_false ind, by decide, by decide, by decide⟩
  | num i =>
    obtain ⟨c, t, he, hg⟩ := intToChars_head i
    exact ⟨c, t, by rw [printV_num, he], hg⟩
  | str s => exact ⟨'"', _, printV_str ind s, by decide, by decide, by decide⟩
  | arr xs =>
    cases xs with
    | nil => exact ⟨'[', _, printV_arr_nil ind, by decide, by decide, by decide⟩
    | cons x xs => exact ⟨'[', _, printV_arr_cons ind x xs, by decide, by decide, by decide⟩
  | obj fs =>
    cases fs with
    | nil => exact ⟨'{', _, printV_obj_nil ind, by decide, by decide, by decide⟩
    | cons p fs =>
      obtain ⟨k, v⟩ := p
      exact ⟨'{', _, printV_obj_cons ind k v fs, by decide, by decide, by decide⟩

theorem skipWs_printV (ind : Nat) (d : Json) (l : List Char) :
    skipWs (printV ind d ++ l) = printV ind d ++ l := by
  obtain ⟨c, t, he, hg⟩ := printV_head ind d
  rw [he]
  exact skipWs_cons_not c (t ++ l) hg.1

theorem parseValue_skip (f : Nat) (w l : List Char) (hw : allWs w) :
    parseValue f (w ++ l) = parseValue f l := by
  cases f with
  | zero => rfl
  | succ f =>
    rw [parseValue]
    rw [parseValue]
    rw [skipWs_append w l hw]

theorem parseValue_null_lit (f : Nat) (rest : List Char) :
    parseValue (f + 1) (['n', 'u', 'l', 'l'] ++ rest) = some (Json.null, rest) := by
  rw [parseValue]
  rw [show skipWs (['n', 'u', 'l', 'l'] ++ rest) = 'n' :: ('u' :: 'l' :: 'l' :: rest) from
    skipWs_cons_not 'n' _ (by decide)]
  simp only []
  rw [if_pos trivial]

theorem parseValue_true_lit (f : Nat) (rest : List Char) :
    parseValue (f + 1) (['t', 'r', 'u', 'e'] ++ rest) = some (Json.bool true, rest) := by
  rw [parseValue]
  rw [show skipWs (['t', 'r', 'u', 'e'] ++ rest) = 't' :: ('r' :: 'u' :: 'e' :: rest) from
    skipWs_cons_not 't' _ (by decide)]
  simp only []
  rw [if_neg (by decide), if_pos trivial]

theorem parseValue_false_lit (f : Nat) (rest : List Char) :
    parseValue (f + 1) (['f', 'a', 'l', 's', 'e'] ++ rest) = some (Json.bool false, rest) := by
  rw [parseValue]
  rw [show skipWs (['f', 'a', 'l', 's', 'e'] ++ rest) = 'f' :: ('a' :: 'l' :: 's' :: 'e' :: rest) from
    skipWs_cons_not 'f' _ (by decide)]
  simp only []
  rw [if_neg (by decide), if_neg (by decide), if_pos trivial]

theorem parseValue_str_lit (f : Nat) (s : String) (rest : List Char) :
    parseValue (f + 1) (encodeStr s ++ rest) = some (Json.str s, rest) := by
  rw [parseValue, encodeStr]
  have hre : ('"' :: ((List.map escapeChar s.toList).flatten ++ ['"'])) ++ rest =
      '"' :: ((List.map escapeChar s.toList).flatten ++ '"' :: rest) := by
    simp [List.append_assoc]
  rw [hre, skipWs_cons_not '"' _ (by decide)]
  simp only []
  rw [if_pos trivial]
  have hlen : s.toList.length <
      ((List.map escapeChar s.toList).flatten ++ '"' :: rest).length + 1 := by
    have := flatten_escape_len s.toList
    simp only [List.length_append, List.length_cons]
    omega
  rw [parseStr_print s.toList _ rest hlen]
  rfl

theorem digitChar_dispatch : ∀ m : Nat, m < 10 →
    ¬ digitChar m = 'n' ∧ ¬ digitChar m = 't' ∧ ¬ digitChar m = 'f' ∧
    ¬ digitChar m = '"' ∧ ¬ digitChar m = '-' ∧ isWsChar (digitChar m) = false := by
  decide

theorem parseValue_digit_cons (f : Nat) (d : Char) (tail : List Char)
    (h1 : ¬ d = 'n') (h2 : ¬ d = 't') (h3 : ¬ d = 'f') (h4 : ¬ d = '"')
    (h5 : ¬ d = '-') (h6 : (digitVal d).isSome = true) (hws : isWsChar d = false) :
    parseValue (f + 1) (d :: tail) =
      some (Json.num ((parseDigitsAux 0 (d :: tail)).1 : Int),
        (parseDigitsAux 0 (d :: tail)).2) := by
  rw [parseValue, skipWs_cons_not d tail hws]
  simp only []
  rw [if_neg h1, if_neg h2, if_neg h3, if_neg h4, if_neg h5, if_pos h6]

theorem parseValue_num_lit (f : Nat) (i : Int) (rest : List Char) (hr : restOk rest) :
    parseValue (f + 1) (intToChars i ++ rest) = some (Json.num i, rest) := by
  rw [intToChars]
  by_cases hi : i < 0
  · rw [if_pos hi]
    rw [show ('-' :: natToDigits i.natAbs) ++ rest = '-' :: (natToDigits i.natAbs ++ rest)
      from rfl]
    rw [parseValue, skipWs_cons_not '-' _ (by decide)]
    simp only []
    rw [if_neg (by decide), if_neg (by decide), if_neg (by decide), if_neg (by decide)]
    obtain ⟨d, ds, hne⟩ : ∃ d ds, natToDigits i.natAbs = d :: ds := by
      cases h : natToDigits i.natAbs with
      | nil => exact absurd h (natToDigits_ne_nil _)
      | cons d ds => exact ⟨d, ds, rfl⟩
    have hd : (digitVal d).isSome = true :=
      natToDigits_isSome _ d (by rw [hne]; exact List.mem_cons_self _ _)
    rw [if_pos trivial, hne]
    show (if (digitVal d).isSome = true then
        some (Json.num (-((parseDigitsAux 0 (d :: (ds ++ rest))).1 : Int)),
          (parseDigitsAux 0 (d :: (ds ++ rest))).2)
      else none) = some (Json.num i, rest)
    rw [if_pos hd]
    have hp : parseDigitsAux 0 (d :: (ds ++ rest)) = (i.natAbs, rest) := by
      rw [show d :: (ds ++ rest) = (d :: ds) ++ rest from rfl, ← hne]
      exact parse_natToDigits i.natAbs rest hr
    rw [hp]
    have hv : -((i.natAbs : Nat) : Int) = i := by omega
    rw [show ((i.natAbs, rest).1 : Int) = ((i.natAbs : Nat) : Int) from rfl, hv]
  · rw [if_neg hi]
    cases hne : natToDigits i.toNat with
    | nil => exact absurd hne (natToDigits_ne_nil _)
    | cons d ds =>
      have hdm : d ∈ natToDigits i.toNat := by rw [hne]; exact List.mem_cons_self _ _
      obtain ⟨m, hm, he⟩ := natToDigits_chars _ d hdm
      obtain ⟨w1, w2, w3, w4, w5, w6⟩ := digitChar_dispatch m hm
      have hd : (digitVal d).isSome = true := natToDigits_isSome _ d hdm
      rw [show (d :: ds) ++ rest = d :: (ds ++ rest) from rfl]
      rw [parseValue_digit_cons f d (ds ++ rest)
        (by rw [he]; exact w1) (by rw [he]; exact w2) (by rw [he]; exact w3)
        (by rw [he]; exact w4) (by rw [he]; exact w5) hd (by rw [he]; exact w6)]
      have hp : parseDigitsAux 0 (d :: (ds ++ rest)) = (i.toNat, rest) := by
        rw [show d :: (ds ++ rest) = (d :: ds) ++ rest from rfl, ← hne]
        exact parse_natToDigits i.toNat rest hr
      rw [hp]
      have hv : ((i.toNat : Nat) : Int) = i := by omega
      rw [show ((i.toNat, rest).1 : Int) = ((i.toNat : Nat) : Int) from rfl, hv]

theorem parseValue_arr_dispatch (f : Nat) (tail : List Char) :
    parseValue (f + 1) ('[' :: tail) =
      if (skipWs tail).head? = some ']' then some (Json.arr [], (skipWs tail).tail)
      else
        match parseItems f tail with
        | some (vs, r) => some (Json.arr vs, r)
        | none => none := by
  rw [parseValue, skipWs_cons_not '[' tail (by decide)]
  simp only []
  rw [if_neg (by decide), if_neg (by decide), if_neg (by decide), if_neg (by decide),
    if_neg (by decide), if_neg (by decide), if_pos trivial]

theorem parseValue_obj_dispatch (f : Nat) (tail : List Char) :
    parseValue (f + 1) ('{' :: tail) =
      if (skipWs tail).head? = some '}' then some (Json.obj [], (skipWs tail).tail)
      else
        match parseMembers f tail with
        | some (ms, r) => some (Json.obj ms, r)
        | none => none := by
  rw [parseValue, skipWs_cons_not '{' tail (by decide)]
  simp only []
  rw [if_neg (by decide), if_neg (by decide), if_neg (by decide), if_neg (by decide),
    if_neg (by decide), if_neg (by decide), if_neg (by decide), if_pos trivial]

theorem parseValue_arr_nil_lit (f : Nat) (rest : List Char) :
    parseValue (f + 1) (['[', ']'] ++ rest) = some (Json.arr [], rest) := by
  rw [show ['[', ']'] ++ rest = '[' :: (']' :: rest) from rfl, parseValue_arr_dispatch,
    skipWs_cons_not ']' rest (by decide)]
  rw [if_pos (by rw [List.head?_cons]), List.tail_cons]

theorem parseValue_obj_nil_lit (f : Nat) (rest : List Char) :
    parseValue (f + 1) (['{', '}'] ++ rest) = some (Json.obj [], rest) := by
  rw [show ['{', '}'] ++ rest = '{' :: ('}' :: rest) from rfl, parseValue_obj_dispatch,
    skipWs_cons_not '}' rest (by decide)]
  rw [if_pos (by rw [List.head?_cons]), List.tail_cons]

theorem consPad_eq (c : Char) (n : Nat) (l : List Char) :
    c :: (List.replicate n ' ' ++ l) = (c :: List.replicate n ' ') ++ l := rfl

theorem restOk_cons (c : Char) (l : List Char) (h : digitVal c = none) :
    restOk (c :: l) := by
  intro c' hc'
  rw [List.head?_cons] at hc'
  injection hc' with hc'
  rw [← hc']
  exact h

theorem restOk_printItems (ind : Nat) (xs : List Json) (X : List Char) :
    restOk (printItems ind xs ++ '\n' :: X) := by
  cases xs with
  | nil =>
    rw [printItems_nil, List.nil_append]
    exact restOk_cons '\n' X (by decide)
  | cons y ys =>
    rw [printItems_cons, List.cons_append]
    exact restOk_cons ',' _ (by decide)

theorem restOk_printMembers (ind : Nat) (fs : List (String × Json)) (X : List Char) :
    restOk (printMembers ind fs ++ '\n' :: X) := by
  cases fs with
  | nil =>
    rw [printMembers_nil, List.nil_append]
    exact restOk_cons '\n' X (by decide)
  | cons p fs =>
    obtain ⟨k, v⟩ := p
    rw [printMembers_cons, List.cons_append]
    exact restOk_cons ',' _ (by decide)

theorem key_len (k : String) (X : List Char) :
    k.toList.length < ((List.map escapeChar k.toList).flatten ++ '"' :: X).length + 1 := by
  have := flatten_escape_len k.toList
  simp only [List.length_append, List.length_cons]
  omega

theorem sizeJ_arr_cons (x : Json) (xs : List Json) :
    sizeJ (Json.arr (x :: xs)) = 1 + sizeItems (x :: xs) := by
  rw [sizeJ]

theorem sizeJ_obj_cons (p : String × Json) (fs : List (String × Json)) :
    sizeJ (Json.obj (p :: fs)) = 1 + sizeMembers (p :: fs) := by
  rw [sizeJ]

theorem sizeItems_cons (x : Json) (xs : List Json) :
    sizeItems (x :: xs) = 1 + Nat.max (sizeJ x) (sizeItems xs) := by
  rw [sizeItems]

theorem sizeMembers_cons (k : String) (v : Json) (fs : List (String × Json)) :
    sizeMembers ((k, v) :: fs) = 1 + Nat.max (sizeJ v) (sizeMembers fs) := by
  rw [sizeMembers]

theorem skipWs_nl_pad_printV (n ind : Nat) (d : Json) (l : List Char) :
    skipWs ('\n' :: (List.replicate n ' ' ++ (printV ind d ++ l))) = printV ind d ++ l := by
  rw [consPad_eq, skipWs_append _ _ (allWs_nl_pad _), skipWs_printV]

theorem encodeStr_cons_append (k : String) (l : List Char) :
    encodeStr k ++ l =
      '"' :: ((List.map escapeChar k.toList).flatten ++ ('"' :: l)) := by
  rw [encodeStr]
  simp [List.append_assoc]

theorem skipWs_nl_pad_encodeStr (n : Nat) (k : String) (l : List Char) :
    skipWs ('\n' :: (List.replicate n ' ' ++ (encodeStr k ++ l))) = encodeStr k ++ l := by
  rw [consPad_eq, skipWs_append _ _ (allWs_nl_pad _), encodeStr_cons_append]
  exact skipWs_cons_not '"' _ (by decide)

/-- The printer/parser roundtrip, by induction on the parser's fuel: a
printed value (with arbitrary trailing text that cannot extend a number),
the tail of a printed array, and the tail of a printed object are read back
exactly. -/
theorem parse_print (fuel : Nat) :
    (∀ d : Json, ∀ ind : Nat, ∀ rest : List Char, sizeJ d < fuel → restOk rest →
      parseValue fuel (printV ind d ++ rest) = some (d, rest)) ∧
    (∀ x : Json, ∀ xs : List Json, ∀ ind indw ind2 : Nat, ∀ rest : List Char,
      sizeItems (x :: xs) < fuel → restOk rest →
      parseItems fuel
        ('\n' :: (List.replicate indw ' ' ++ (printV ind x ++ (printItems ind xs ++
          ('\n' :: (List.replicate ind2 ' ' ++ (']' :: rest))))))) = some (x :: xs, rest)) ∧
    (∀ k : String, ∀ v : Json, ∀ fs : List (String × Json), ∀ ind indw ind2 : Nat,
      ∀ rest : List Char,
      sizeMembers ((k, v) :: fs) < fuel → restOk rest →
      parseMembers fuel
        ('\n' :: (List.replicate indw ' ' ++ (encodeStr k ++ (':' :: ' ' ::
          (printV ind v ++ (printMembers ind fs ++
            ('\n' :: (List.replicate ind2 ' ' ++ ('}' :: rest))))))))) =
        some ((k, v) :: fs, rest)) := by
  induction fuel with
  | zero =>
    refine ⟨?_, ?_, ?_⟩
    · intro d ind rest hs _
      omega
    · intro x xs ind indw ind2 rest hs _
      omega
    · intro k v fs ind indw ind2 rest hs _
      omega
  | succ f ih =>
    obtain ⟨ihA, ihB, ihC⟩ := ih
    refine ⟨?_, ?_, ?_⟩
    · -- values
      intro d ind rest hs hr
      cases d with
      | null => rw [printV_null]; exact parseValue_null_lit f rest
      | bool b =>
        cases b with
        | true => rw [printV_true]; exact parseValue_true_lit f rest
        | false => rw [printV_false]; exact parseValue_false_lit f rest
      | num i => rw [printV_num]; exact parseValue_num_lit f i rest hr
      | str s => rw [printV_str]; exact parseValue_str_lit f s rest
      | arr xs =>
        cases xs with
        | nil => rw [printV_arr_nil]; exact parseValue_arr_nil_lit f rest
        | cons x xs =>
          rw [printV_arr_cons]
          simp only [List.cons_append, List.append_assoc, List.singleton_append,
            List.nil_append]
          rw [parseValue_arr_dispatch]
          rw [skipWs_nl_pad_printV]
          have hcond : ¬ (printV (ind + 2) x ++
              (printItems (ind + 2) xs ++
                ('\n' :: (List.replicate ind ' ' ++ (']' :: rest))))).head? = some ']' := by
            obtain ⟨c0, t0, he0, hg0⟩ := printV_head (ind + 2) x
            rw [he0, List.cons_append, List.head?_cons]
            intro h
            injection h with h
            exact hg0.2.1 h
          rw [if_neg hcond]
          have hsz : sizeItems (x :: xs) < f := by
            rw [sizeJ_arr_cons] at hs
            omega
          rw [ihB x xs (ind + 2) (ind + 2) ind rest hsz hr]
      | obj fs =>
        cases fs with
        | nil => rw [printV_obj_nil]; exact parseValue_obj_nil_lit f rest
        | cons p fs =>
          obtain ⟨k, v⟩ := p
          rw [printV_obj_cons]
          simp only [List.cons_append, List.append_assoc, List.singleton_append,
            List.nil_append]
          rw [parseValue_obj_dispatch]
          rw [skipWs_nl_pad_encodeStr]
          have hcond : ¬ (encodeStr k ++ (':' :: ' ' ::
              (printV (ind + 2) v ++ (printMembers (ind + 2) fs ++
                ('\n' :: (List.replicate ind ' ' ++ ('}' :: rest))))))).head? = some '}' := by
            rw [encodeStr_cons_append, List.head?_cons]
            intro h
            injection h with h
            exact absurd h (by decide)
          rw [if_neg hcond]
          have hsz : sizeMembers ((k, v) :: fs) < f := by
            rw [sizeJ_obj_cons] at hs
            omega
          rw [ihC k v fs (ind + 2) (ind + 2) ind rest hsz hr]
    · -- array tails
      intro x xs ind indw ind2 rest hs hr
      rw [parseItems, consPad_eq '\n' indw, parseValue_skip f _ _ (allWs_nl_pad indw)]
      have hszx : sizeJ x < f := by
        rw [sizeItems_cons] at hs
        have hle : sizeJ x ≤ Nat.max (sizeJ x) (sizeItems xs) := le_max_left _ _
        omega
      rw [ihA x ind _ hszx (restOk_printItems ind xs _)]
      simp only []
      cases xs with
      | nil =>
        rw [printItems_nil, List.nil_append]
        rw [consPad_eq '\n' ind2, skipWs_append _ _ (allWs_nl_pad _),
          skipWs_cons_not ']' _ (by decide)]
        simp only []
      | cons y ys =>
        rw [printItems_cons]
        simp only [List.cons_append, List.append_assoc]
        rw [skipWs_cons_not ',' _ (by decide)]
        simp only []
        have hszy : sizeItems (y :: ys) < f := by
          rw [sizeItems_cons] at hs
          have hle : sizeItems (y :: ys) ≤ Nat.max (sizeJ x) (sizeItems (y :: ys)) :=
            le_max_right _ _
          omega
        rw [ihB y ys ind ind ind2 rest hszy hr]
    · -- object tails
      intro k v fs ind indw ind2 rest hs hr
      rw [parseMembers, consPad_eq '\n' indw, skipWs_append _ _ (allWs_nl_pad indw),
        encodeStr_cons_append]
      rw [skipWs_cons_not '"' _ (by decide)]
      simp only []
      rw [parseStr_print k.toList _ _ (key_len k _)]
      simp only []
      rw [skipWs_cons_not ':' _ (by decide)]
      simp only []
      rw [show (' ' :: (printV ind v ++ (printMembers ind fs ++
          ('\n' :: (List.replicate ind2 ' ' ++ ('}' :: rest)))))) =
        List.replicate 1 ' ' ++ (printV ind v ++ (printMembers ind fs ++
          ('\n' :: (List.replicate ind2 ' ' ++ ('}' :: rest))))) from rfl]
      rw [parseValue_skip f _ _ (allWs_pad 1)]
      have hszv : sizeJ v < f := by
        rw [sizeMembers_cons] at hs
        have hle : sizeJ v ≤ Nat.max (sizeJ v) (sizeMembers fs) := le_max_left _ _
        omega
      rw [ihA v ind _ hszv (restOk_printMembers ind fs _)]
      simp only []
      cases fs with
      | nil =>
        rw [printMembers_nil, List.nil_append]
        rw [consPad_eq '\n' ind2, skipWs_append _ _ (allWs_nl_pad _),
          skipWs_cons_not '}' _ (by decide)]
        rfl
      | cons p fs2 =>
        obtain ⟨k2, v2⟩ := p
        rw [printMembers_cons]
        simp only [List.cons_append, List.append_assoc]
        rw [skipWs_cons_not ',' _ (by decide)]
        simp only []
        have hsz2 : sizeMembers ((k2, v2) :: fs2) < f := by
          rw [sizeMembers_cons] at hs
          have hle : sizeMembers ((k2, v2) :: fs2) ≤
              Nat.max (sizeJ v) (sizeMembers ((k2, v2) :: fs2)) := le_max_right _ _
          omega
        rw [ihC k2 v2 fs2 ind ind ind2 rest hsz2 hr]
        rfl

theorem sizeJ_null_eq : sizeJ Json.null = 1 := by rw [sizeJ]
theorem sizeJ_bool_eq (b : Bool) : sizeJ (Json.bool b) = 1 := by rw [sizeJ]
theorem sizeJ_num_eq (i : Int) : sizeJ (Json.num i) = 1 := by rw [sizeJ]
theorem sizeJ_str_eq (s : String) : sizeJ (Json.str s) = 1 := by rw [sizeJ]
theorem sizeJ_arr_nil_eq : sizeJ (Json.arr []) = 1 := by rw [sizeJ]
theorem sizeJ_obj_nil_eq : sizeJ (Json.obj []) = 1 := by rw [sizeJ]
theorem sizeItems_nil_eq : sizeItems [] = 0 := by rw [sizeItems]
theorem sizeMembers_nil_eq : sizeMembers [] = 0 := by rw [sizeMembers]

theorem intToChars_len_pos (i : Int) : 1 ≤ (intToChars i).length := by
  obtain ⟨c, t, he, _⟩ := intToChars_head i
  rw [he]
  simp

theorem size_le_print_aux : ∀ n : Nat,
    (∀ d : Json, ∀ ind : Nat, sizeJ d ≤ n → sizeJ d ≤ (printV ind d).length) ∧
    (∀ xs : List Json, ∀ ind : Nat, sizeItems xs ≤ n →
      sizeItems xs ≤ (printItems ind xs).length + 1) ∧
    (∀ fs : List (String × Json), ∀ ind : Nat, sizeMembers fs ≤ n →
      sizeMembers fs ≤ (printMembers ind fs).length + 1) := by
  intro n
  induction n with
  | zero =>
    refine ⟨?_, ?_, ?_⟩
    · intro d ind h
      omega
    · intro xs ind h
      cases xs with
      | nil => rw [sizeItems_nil_eq] at *; omega
      | cons x xs => rw [sizeItems_cons] at h; omega
    · intro fs ind h
      cases fs with
      | nil => rw [sizeMembers_nil_eq] at *; omega
      | cons p fs =>
        obtain ⟨k, v⟩ := p
        rw [sizeMembers_cons] at h
        omega
  | succ n ih =>
    obtain ⟨ihA, ihB, ihC⟩ := ih
    refine ⟨?_, ?_, ?_⟩
    · intro d ind h
      cases d with
      | null => rw [sizeJ_null_eq, printV_null]; simp
      | bool b =>
        cases b with
        | true => rw [sizeJ_bool_eq, printV_true]; simp
        | false => rw [sizeJ_bool_eq, printV_false]; simp
      | num i => rw [sizeJ_num_eq, printV_num]; exact intToChars_len_pos i
      | str s =>
        rw [sizeJ_str_eq, printV_str, encodeStr]
        simp
      | arr xs =>
        cases xs with
        | nil => rw [sizeJ_arr_nil_eq, printV_arr_nil]; simp
        | cons x xs =>
          rw [sizeJ_arr_cons] at *
          have hb := ihB (x :: xs) (ind + 2) (by omega)
          rw [printItems_cons] at hb
          rw [printV_arr_cons]
          simp only [List.length_cons, List.length_append, List.length_replicate] at *
          omega
      | obj fs =>
        cases fs with
        | nil => rw [sizeJ_obj_nil_eq, printV_obj_nil]; simp
        | cons p fs =>
          obtain ⟨k, v⟩ := p
          rw [sizeJ_obj_cons] at *
          have hb := ihC ((k, v) :: fs) (ind + 2) (by omega)
          rw [printMembers_cons] at hb
          rw [printV_obj_cons]
          simp only [List.length_cons, List.length_append, List.length_replicate] at *
          omega
    · intro xs ind h
      cases xs with
      | nil => rw [sizeItems_nil_eq]; omega
      | cons x xs =>
        rw [sizeItems_cons] at *
        have hmax : Nat.max (sizeJ x) (sizeItems xs) ≤ sizeJ x + sizeItems xs :=
          Nat.max_le.mpr ⟨Nat.le_add_right _ _, Nat.le_add_left _ _⟩
        have hx : sizeJ x ≤ n := by
          have hle : sizeJ x ≤ Nat.max (sizeJ x) (sizeItems xs) := le_max_left _ _
          omega
        have hxs : sizeItems xs ≤ n := by
          have hle : sizeItems xs ≤ Nat.max (sizeJ x) (sizeItems xs) := le_max_right _ _
          omega
        have ha := ihA x ind hx
        have hb := ihB xs ind hxs
        rw [printItems_cons]
        simp only [List.length_cons, List.length_append, List.length_replicate]
        omega
    · intro fs ind h
      cases fs with
      | nil => rw [sizeMembers_nil_eq]; omega
      | cons p fs =>
        obtain ⟨k, v⟩ := p
        rw [sizeMembers_cons] at *
        have hmax : Nat.max (sizeJ v) (sizeMembers fs) ≤ sizeJ v + sizeMembers fs :=
          Nat.max_le.mpr ⟨Nat.le_add_right _ _, Nat.le_add_left _ _⟩
        have hv : sizeJ v ≤ n := by
          have hle : sizeJ v ≤ Nat.max (sizeJ v) (sizeMembers fs) := le_max_left _ _
          omega
        have hfs : sizeMembers fs ≤ n := by
          have hle : sizeMembers fs ≤ Nat.max (sizeJ v) (sizeMembers fs) := le_max_right _ _
          omega
        have ha := ihA v ind hv
        have hb := ihC fs ind hfs
        rw [printMembers_cons]
        simp only [List.length_cons, List.length_append, List.length_replicate]
        omega

theorem sizeJ_le_printV (d : Json) (ind : Nat) : sizeJ d ≤ (printV ind d).length :=
  (size_le_print_aux (sizeJ d)).1 d ind (Nat.le_refl _)

/-- Round trip: re-parsing a serialized document (with the trailing newline
`main` appends) recovers the document exactly. -/
theorem loads_dumps (d : Json) : loads (dumps d ++ "\n") = some d := by
  rw [loads]
  have htl : (dumps d ++ "\n").toList = printV 0 d ++ ['\n'] := by
    show (dumps d ++ "\n").data = printV 0 d ++ ['\n']
    rw [String.data_append]
    rfl
  rw [htl]
  have hfuel : sizeJ d < (printV 0 d ++ ['\n']).length + 1 := by
    have := sizeJ_le_printV d 0
    simp only [List.length_append, List.length_cons, List.length_nil]
    omega
  rw [(parse_print ((printV 0 d ++ ['\n']).length + 1)).1 d 0 ['\n'] hfuel
    (restOk_cons '\n' [] (by decide))]
  rfl

/-- The fixed canonical (source-platform) output path `WINDOWS_OUT`,
relative to the script's own location. -/
def windowsOutPath : String := "settings.windows.json"

/-- The fixed normalized (target-platform) output path `LINUX_OUT`. -/
def linuxOutPath : String := "settings.linux.json"

/-- Result of one run of `main`: either normal completion (files written, in
order, and lines printed, in order), or termination by an uncaught
exception / `SystemExit` (non-zero status) with the writes performed before
the failure. -/
inductive Outcome where
  | ok : List (String × String) → List String → Outcome
  | fail : List (String × String) → String → Outcome

/-- Embedding of `_default_live_windows_settings`: an unset or empty
`USERPROFILE` raises `SystemExit`; otherwise the default path is derived
from it. -/
def resolveDefault (userprofile : Option String) : Except String String :=
  match userprofile with
  | some u =>
    if u = "" then Except.error "USERPROFILE is not set. Pass --from explicitly."
    else Except.ok (u ++ "/.pi/agent/settings.json")
  | none => Except.error "USERPROFILE is not set. Pass --from explicitly."

/-- Source resolution in `main`: `Path(args.source) if args.source else
_default_live_windows_settings()` (an empty `--from` is falsy and falls back
to the default). -/
def resolveSource (sourceArg userprofile : Option String) : Except String String :=
  match sourceArg with
  | some p => if p = "" then resolveDefault userprofile else Except.ok p
  | none => resolveDefault userprofile

/-- Embedding of `main`, over an abstract file system `fs` mapping a path to
its content when the file exists.  Steps, in source order: resolve the
source, check existence, read and parse, write the canonical file, derive
the Linux variant (which raises `AttributeError` on a non-object document,
after the first write), write the normalized file, print the two lines. -/
def main_model (sourceArg userprofile : Option String)
    (fs : String → Option String) : Outcome :=
  match resolveSource sourceArg userprofile with
  | Except.error e => Outcome.fail [] e
  | Except.ok source =>
    match fs source with
    | none => Outcome.fail [] ("Source file not found: " ++ source)
    | some raw =>
      match loads raw with
      | none => Outcome.fail [] "json.decoder.JSONDecodeError"
      | some data =>
        match to_linux_variant data with
        | none => Outcome.fail [(windowsOutPath, dumps data ++ "\n")] "AttributeError"
        | some linux =>
          Outcome.ok
            [(windowsOutPath, dumps data ++ "\n"), (linuxOutPath, dumps linux ++ "\n")]
            ["Wrote: " ++ windowsOutPath, "Wrote: " ++ linuxOutPath]

theorem main_model_missing (sa up : Option String) (fs : String → Option String)
    (src : String) (h1 : resolveSource sa up = Except.ok src) (h2 : fs src = none) :
    main_model sa up fs = Outcome.fail [] ("Source file not found: " ++ src) := by
  rw [main_model, h1]
  simp only []
  rw [h2]

theorem main_model_success (sa up : Option String) (fs : String → Option String)
    (src raw : String) (d l : Json)
    (h1 : resolveSource sa up = Except.ok src) (h2 : fs src = some raw)
    (h3 : loads raw = some d) (h4 : to_linux_variant d = some l) :
    main_model sa up fs =
      Outcome.ok
        [(windowsOutPath, dumps d ++ "\n"), (linuxOutPath, dumps l ++ "\n")]
        ["Wrote: " ++ windowsOutPath, "Wrote: " ++ linuxOutPath] := by
  rw [main_model, h1]
  simp only []
  rw [h2]
  simp only []
  rw [h3]
  simp only []
  rw [h4]

theorem getKey_normListField_arr (f : Json → Json) (o : List (String × Json))
    (k : String) (xs : List Json) (h : getKey k o = some (Json.arr xs)) :
    getKey k (normListField f o k) = some (Json.arr (List.map f xs)) := by
  rw [normListField_eq, h]
  show getKey k (setKey o k (Json.arr (List.map f xs))) = _
  exact getKey_setKey_self o k _ _ h

theorem getKey_normObjFields_ne (o : List (String × Json)) (k : String)
    (h1 : k ≠ "skills") (h2 : k ≠ "extensions") (h3 : k ≠ "themes")
    (h4 : k ≠ "packages") :
    getKey k (normObjFields o) = getKey k o := by
  rw [normObjFields, normPackages, normTop,
    getKey_normListField_ne _ _ "packages" k h4,
    getKey_normListField_ne _ _ "themes" k h3,
    getKey_normListField_ne _ _ "extensions" k h2,
    getKey_normListField_ne _ _ "skills" k h1]

theorem getKey_normPkgFields_ne (g : List (String × Json)) (k : String)
    (h1 : k ≠ "extensions") (h2 : k ≠ "skills") (h3 : k ≠ "themes")
    (h4 : k ≠ "prompts") :
    getKey k (normPkgFields g) = getKey k g := by
  rw [normPkgFields,
    getKey_normListField_ne _ _ "prompts" k h4,
    getKey_normListField_ne _ _ "themes" k h3,
    getKey_normListField_ne _ _ "skills" k h2,
    getKey_normListField_ne _ _ "extensions" k h1]

theorem getKey_skills_normObjFields (o : List (String × Json)) (xs : List Json)
    (h : getKey "skills" o = some (Json.arr xs)) :
    getKey "skills" (normObjFields o) = some (Json.arr (List.map normElem xs)) := by
  rw [normObjFields, normPackages, normTop,
    getKey_normListField_ne _ _ "packages" "skills" (by decide),
    getKey_normListField_ne _ _ "themes" "skills" (by decide),
    getKey_normListField_ne _ _ "extensions" "skills" (by decide)]
  exact getKey_normListField_arr normElem o "skills" xs h

theorem normElem_non_str (x : Json) (h : ∀ s, x ≠ Json.str s) : normElem x = x := by
  cases x with
  | str s => exact absurd rfl (h s)
  | null => rfl
  | bool b => rfl
  | num n => rfl
  | arr xs => rfl
  | obj fs => rfl

theorem normPkg_non_obj (p : Json) (h : ∀ g, p ≠ Json.obj g) : normPkg p = p := by
  cases p with
  | obj g => exact absurd rfl (h g)
  | null => rfl
  | bool b => rfl
  | num n => rfl
  | str s => rfl
  | arr xs => rfl

theorem not_mem_touched (k : String)
    (hk : ¬ k ∈ (["skills", "extensions", "themes", "packages"] : List String)) :
    k ≠ "skills" ∧ k ≠ "extensions" ∧ k ≠ "themes" ∧ k ≠ "packages" := by
  simp only [List.mem_cons, List.mem_singleton, not_or] at hk
  exact ⟨hk.1, hk.2.1, hk.2.2.1, hk.2.2.2.1⟩

theorem not_mem_pkg_touched (k : String)
    (hk : ¬ k ∈ (["extensions", "skills", "themes", "prompts"] : List String)) :
    k ≠ "extensions" ∧ k ≠ "skills" ∧ k ≠ "themes" ∧ k ≠ "prompts" := by
  simp only [List.mem_cons, List.mem_singleton, not_or] at hk
  exact ⟨hk.1, hk.2.1, hk.2.2.1, hk.2.2.2.1⟩

theorem collapseSteps_iterate :
    ∀ n : Nat, ∀ s : List Char, s.length ≤ n →
      ∃ m, collapseSteps n s = replaceAll^[m] s := by
  intro n
  induction n with
  | zero =>
    intro s hs
    have : s = [] := List.eq_nil_of_length_eq_zero (Nat.le_zero.mp hs)
    subst this
    exact ⟨0, rfl⟩
  | succ n ih =>
    intro s hs
    by_cases h : hasSub dslash s = true
    · obtain ⟨m, hm⟩ := ih (replaceAll s) (by have := replaceAll_length_lt s h; omega)
      refine ⟨m + 1, ?_⟩
      rw [collapseSteps, if_pos h, hm, Function.iterate_succ_apply]
    · refine ⟨0, ?_⟩
      rw [collapseSteps, if_neg h]
      rfl

/-- C1: `_norm_path_string` returns any string containing `"://"` unchanged;
otherwise it replaces every backslash by a forward slash and collapses every
run of two or more consecutive forward slashes to a single slash (the
while-loop computes exactly the spec-side run collapse), as on the examples
`"C:\Users\me\.pi\skills\x.json"`, `"a//b///c"`, and
`"https://example.com//pkg"`. -/
theorem claim1_norm_path_string_spec :
    (∀ v : String, norm_path_string v =
      if hasSub schemeMark v.toList = true then v
      else String.mk (collapseRuns (List.map bsToSlash v.toList))) ∧
    norm_path_string "C:\\Users\\me\\.pi\\skills\\x.json" = "C:/Users/me/.pi/skills/x.json" ∧
    norm_path_string "a//b///c" = "a/b/c" ∧
    norm_path_string "https://example.com//pkg" = "https://example.com//pkg" := by
  refine ⟨?_, by decide, by decide, by decide⟩
  intro v
  rw [norm_path_string_ite]
  by_cases h : hasSub schemeMark v.toList = true
  · rw [if_pos h, if_pos h]
  · rw [if_neg h, if_neg h, collapseLoop_eq_collapseRuns]

/-- C2: normalization is idempotent — applying `_to_linux_variant` to its own
output reproduces that output. -/
theorem claim2_normalize_idempotent (d d' : Json)
    (h : to_linux_variant d = some d') : to_linux_variant d' = some d' :=
  to_linux_variant_idem d d' h

theorem claim2_witness :
    to_linux_variant (Json.obj [("skills", Json.arr [Json.str "a\\b"])]) =
      some (Json.obj [("skills", Json.arr [Json.str "a/b"])]) ∧
    to_linux_variant (Json.obj [("skills", Json.arr [Json.str "a/b"])]) =
      some (Json.obj [("skills", Json.arr [Json.str "a/b"])]) :=
  ⟨rfl, claim2_normalize_idempotent
    (Json.obj [("skills", Json.arr [Json.str "a\\b"])])
    (Json.obj [("skills", Json.arr [Json.str "a/b"])]) rfl⟩

/-- C3: normalization preserves document structure — the output of
`_to_linux_variant` has the same structural skeleton (object keys and their
order, array lengths and element order, all non-string leaves) as the input;
only string contents may differ. -/
theorem claim3_structure_preserved (d d' : Json)
    (h : to_linux_variant d = some d') : shape d' = shape d :=
  shape_to_linux_variant d d' h

theorem claim3_witness :
    shape (Json.obj [("skills", Json.arr [Json.str "x/y", Json.num 3])]) =
      shape (Json.obj [("skills", Json.arr [Json.str "x\\y", Json.num 3])]) :=
  claim3_structure_preserved
    (Json.obj [("skills", Json.arr [Json.str "x\\y", Json.num 3])])
    (Json.obj [("skills", Json.arr [Json.str "x/y", Json.num 3])]) rfl

/-- C4 (counterexample): the claim that `_to_linux_variant` accepts every
JSON document fails — a non-object top-level value (here an array) raises
`AttributeError` (`.get` on a list), modelled as `none`. -/
theorem claim4_counterexample :
    to_linux_variant (Json.arr []) = none ∧
    ¬ (∀ d : Json, ∃ d', to_linux_variant d = some d') := by
  refine ⟨rfl, ?_⟩
  intro h
  obtain ⟨d', hd⟩ := h (Json.arr [])
  rw [show to_linux_variant (Json.arr []) = none from rfl] at hd
  exact Option.noConfusion hd

/-- C4 (amended): `_to_linux_variant` accepts every JSON *object* without
error, and passes every field other than the four named path-bearing keys
through with its value unmodified; non-object top-level documents are
rejected (`AttributeError`). -/
theorem claim4_object_documents_accepted (fields : List (String × Json)) (k : String)
    (hk : ¬ k ∈ (["skills", "extensions", "themes", "packages"] : List String)) :
    (∃ d', to_linux_variant (Json.obj fields) = some d') ∧
    getKey k (normObjFields fields) = getKey k fields := by
  obtain ⟨h1, h2, h3, h4⟩ := not_mem_touched k hk
  exact ⟨⟨Json.obj (normObjFields fields), rfl⟩,
    getKey_normObjFields_ne fields k h1 h2 h3 h4⟩

theorem claim4_witness :
    (∃ d', to_linux_variant (Json.obj [("theme_color", Json.str "C:\\red")]) = some d') ∧
    getKey "theme_color" (normObjFields [("theme_color", Json.str "C:\\red")]) =
      getKey "theme_color" [("theme_color", Json.str "C:\\red")] :=
  claim4_object_documents_accepted [("theme_color", Json.str "C:\\red")]
    "theme_color" (by decide)

/-- C6: only the named path-bearing fields are rewritten — `_to_linux_variant`
maps an object to the object rewritten by `normObjFields`; any other
top-level key keeps its value; non-string elements of a path-bearing list
and non-object elements of `packages` are untouched; inside a package
object, keys other than the four named ones keep their values; and a
`skills` list is rewritten exactly element-wise by `normElem`. -/
theorem claim6_frame (fields : List (String × Json)) (k : String)
    (hk : ¬ k ∈ (["skills", "extensions", "themes", "packages"] : List String)) :
    to_linux_variant (Json.obj fields) = some (Json.obj (normObjFields fields)) ∧
    getKey k (normObjFields fields) = getKey k fields ∧
    (∀ x : Json, (∀ s, x ≠ Json.str s) → normElem x = x) ∧
    (∀ p : Json, (∀ g, p ≠ Json.obj g) → normPkg p = p) ∧
    (∀ g : List (String × Json), ∀ k' : String,
      ¬ k' ∈ (["extensions", "skills", "themes", "prompts"] : List String) →
      getKey k' (normPkgFields g) = getKey k' g) ∧
    (∀ xs, getKey "skills" fields = some (Json.arr xs) →
      getKey "skills" (normObjFields fields) = some (Json.arr (List.map normElem xs))) := by
  obtain ⟨h1, h2, h3, h4⟩ := not_mem_touched k hk
  refine ⟨rfl, getKey_normObjFields_ne fields k h1 h2 h3 h4,
    normElem_non_str, normPkg_non_obj, ?_, ?_⟩
  · intro g k' hk'
    obtain ⟨g1, g2, g3, g4⟩ := not_mem_pkg_touched k' hk'
    exact getKey_normPkgFields_ne g k' g1 g2 g3 g4
  · intro xs hxs
    exact getKey_skills_normObjFields fields xs hxs

theorem claim6_witness :
    to_linux_variant (Json.obj
        [("theme_color", Json.str "C:\\red"), ("skills", Json.arr [Json.num 1])]) =
      some (Json.obj (normObjFields
        [("theme_color", Json.str "C:\\red"), ("skills", Json.arr [Json.num 1])])) ∧
    getKey "theme_color" (normObjFields
        [("theme_color", Json.str "C:\\red"), ("skills", Json.arr [Json.num 1])]) =
      getKey "theme_color"
        [("theme_color", Json.str "C:\\red"), ("skills", Json.arr [Json.num 1])] ∧
    (∀ x : Json, (∀ s, x ≠ Json.str s) → normElem x = x) ∧
    (∀ p : Json, (∀ g, p ≠ Json.obj g) → normPkg p = p) ∧
    (∀ g : List (String × Json), ∀ k' : String,
      ¬ k' ∈ (["extensions", "skills", "themes", "prompts"] : List String) →
      getKey k' (normPkgFields g) = getKey k' g) ∧
    (∀ xs, getKey "skills"
        [("theme_color", Json.str "C:\\red"), ("skills", Json.arr [Json.num 1])] =
          some (Json.arr xs) →
      getKey "skills" (normObjFields
        [("theme_color", Json.str "C:\\red"), ("skills", Json.arr [Json.num 1])]) =
        some (Json.arr (List.map normElem xs))) :=
  claim6_frame [("theme_color", Json.str "C:\\red"), ("skills", Json.arr [Json.num 1])]
    "theme_color" (by decide)

/-- C7: round trip on the canonical output — the canonical file content
(the serialized document plus the trailing newline `main` appends), when
reparsed, is exactly the loaded document. -/
theorem claim7_roundtrip (d : Json) : loads (dumps d ++ "\n") = some d :=
  loads_dumps d

/-- C8: when the resolved source path does not exist, the run fails (raises
`SystemExit`, a non-zero status) with the `Source file not found` message,
having performed no write at all. -/
theorem claim8_missing_source (sa up : Option String) (fs : String → Option String)
    (src : String) (h1 : resolveSource sa up = Except.ok src)
    (h2 : fs src = none) :
    main_model sa up fs = Outcome.fail [] ("Source file not found: " ++ src) :=
  main_model_missing sa up fs src h1 h2

theorem claim8_witness :
    main_model (some "/nonexistent/path") none (fun _ => none) =
      Outcome.fail [] ("Source file not found: " ++ "/nonexistent/path") :=
  claim8_missing_source (some "/nonexistent/path") none (fun _ => none)
    "/nonexistent/path" rfl rfl

/-- A one-file demo file system holding `"{}"` at `/settings.json`. -/
def fsDemo : String → Option String :=
  fun p => if p = "/settings.json" then some (String.mk ['\x7b', '\x7d']) else none

/-- C9 (counterexample): a successful run prints the two lines
`Wrote: <canonical path>` and `Wrote: <normalized path>`; neither printed
line equals one of the two output paths themselves, so the claim that each
printed line *is* one of the paths fails. -/
theorem claim9_counterexample :
    main_model (some "/settings.json") none fsDemo =
      Outcome.ok
        [(windowsOutPath, dumps (Json.obj []) ++ "\n"),
         (linuxOutPath, dumps (Json.obj []) ++ "\n")]
        ["Wrote: " ++ windowsOutPath, "Wrote: " ++ linuxOutPath] ∧
    ("Wrote: " ++ windowsOutPath) ≠ windowsOutPath ∧
    ("Wrote: " ++ windowsOutPath) ≠ linuxOutPath ∧
    ("Wrote: " ++ linuxOutPath) ≠ windowsOutPath ∧
    ("Wrote: " ++ linuxOutPath) ≠ linuxOutPath := by
  exact ⟨rfl, by decide, by decide, by decide, by decide⟩

/-- C9 (amended): on normal completion the program exits with status 0,
writes the canonical file then the normalized file, and prints exactly two
lines, in order: `Wrote: ` followed by the canonical output path, then
`Wrote: ` followed by the normalized output path. -/
theorem claim9_success_output (sa up : Option String) (fs : String → Option String)
    (src raw : String) (d l : Json)
    (h1 : resolveSource sa up = Except.ok src) (h2 : fs src = some raw)
    (h3 : loads raw = some d) (h4 : to_linux_variant d = some l) :
    main_model sa up fs =
      Outcome.ok
        [(windowsOutPath, dumps d ++ "\n"), (linuxOutPath, dumps l ++ "\n")]
        ["Wrote: " ++ windowsOutPath, "Wrote: " ++ linuxOutPath] :=
  main_model_success sa up fs src raw d l h1 h2 h3 h4

theorem claim9_witness :
    main_model (some "/settings.json") none fsDemo =
      Outcome.ok
        [(windowsOutPath, dumps (Json.obj []) ++ "\n"),
         (linuxOutPath, dumps (Json.obj []) ++ "\n")]
        ["Wrote: " ++ windowsOutPath, "Wrote: " ++ linuxOutPath] :=
  claim9_success_output (some "/settings.json") none fsDemo "/settings.json"
    (String.mk ['\x7b', '\x7d']) (Json.obj []) (Json.obj []) rfl rfl rfl rfl

/-- C10: the slash-collapsing repetition terminates — for every string,
some finite number of `replace("//", "/")` passes reaches a string with no
`"//"`, and the loop computes exactly that iterate. -/
theorem claim10_collapse_terminates (s : List Char) :
    ∃ n : Nat, collapseLoop s = replaceAll^[n] s ∧
      hasSub dslash (replaceAll^[n] s) = false := by
  obtain ⟨m, hm⟩ := collapseSteps_iterate s.length s (Nat.le_refl _)
  refine ⟨m, hm, ?_⟩
  rw [← hm]
  exact hasSub_dslash_collapseSteps s.length s (Nat.le_refl _)
